import Mathlib

/-!
Verification of the DFA equivalence checker in
`Portafolio/proyectos/Casino/afdd_gui_equivalencia.py`.

The algorithmic core of the source is a deterministic finite automaton model
(`DFA` with `is_complete`, `complete_with_sink`, `accepts`), witness
reconstruction from BFS back-pointers (`reconstruct_word`), and a product
breadth-first search (`are_equivalent`).  This file gives a shallow embedding
of that code and proves or refutes the specification claims about it.

Modelling conventions:
* Python sets of strings are modelled as `List String` with membership
  semantics (`set.add` appends when the element is missing).
* Python dicts are modelled as association lists; `assocFind` returns the
  entry for a key, with fresh-key insertion modelled by appending (for the
  transition table, whose keys are only ever added when absent) or by
  prepending (for the parent map, where the newest binding must win).
* The Python `while` loops always terminate on these finite structures; they
  are modelled with an explicit fuel argument, and the fuel chosen in
  `are_equivalent` and `reconstruct_word` is proved sufficient for the inputs
  the claims quantify over.
* Python strings are `String`; `accepts` iterates over the characters of the
  word exactly as `for ch in word` does, looking up the one-character string
  `ch.toString`, while the BFS iterates over whole alphabet symbols.  This
  distinction is faithful to the source and is observable when alphabet
  symbols have more than one character.
-/

set_option maxHeartbeats 1000000

namespace Afdd

/-- Association-list lookup modelling a Python dict read: the first matching
key wins. -/
def assocFind {α β : Type} [DecidableEq α] : List (α × β) → α → Option β
  | [], _ => none
  | (k, v) :: rest, key => if k = key then some v else assocFind rest key

/-- The automaton model of the source (`class DFA`): state set, alphabet,
start state, accepting states and the transition dictionary keyed by
(state, symbol). -/
structure DFA where
  states : List String
  alphabet : List String
  start_state : String
  accept_states : List String
  transitions : List ((String × String) × String)
  name : String := "AFD"

/-- `DFA.is_complete`: every (state, symbol) pair has a transition entry. -/
def DFA.is_complete (d : DFA) : Bool :=
  d.states.all fun q => d.alphabet.all fun a => (assocFind d.transitions (q, a)).isSome

/-- One loop of `complete_with_sink`: for each symbol of `alph` lacking a
transition from `q`, add one to `sink` (`self.transitions[(q, a)] = sink`). -/
def fillRow (sink q : String) (t : List ((String × String) × String))
    (alph : List String) : List ((String × String) × String) :=
  alph.foldl (fun t a => if (assocFind t (q, a)).isSome then t else t ++ [((q, a), sink)]) t

/-- The nested loop of `complete_with_sink` over `list(self.states)`. -/
def fillAll (sink : String) (t : List ((String × String) × String))
    (sts alph : List String) : List ((String × String) × String) :=
  sts.foldl (fun t q => fillRow sink q t alph) t

/-- `DFA.complete_with_sink`: no-op when complete; otherwise add the state
`"SINK_STATE"` when absent, give it a self-loop on every symbol, and send
every missing (state, symbol) pair to it. -/
def DFA.complete_with_sink (d : DFA) : DFA :=
  if d.is_complete then d
  else
    let sink := "SINK_STATE"
    let states' := if sink ∈ d.states then d.states else d.states ++ [sink]
    let trans1 := fillRow sink sink d.transitions d.alphabet
    let trans2 := fillAll sink trans1 states' d.alphabet
    { d with states := states', transitions := trans2 }

/-- The character-by-character run of `DFA.accepts`: from `current`, follow
the transition for each character of the word (looked up as the one-character
string, as Python's `for ch in word` does); a missing transition rejects. -/
def acceptsFrom (d : DFA) : String → List Char → Bool
  | current, [] => decide (current ∈ d.accept_states)
  | current, ch :: rest =>
    match assocFind d.transitions (current, ch.toString) with
    | none => false
    | some next => acceptsFrom d next rest

/-- `DFA.accepts`: run the word from the start state. -/
def DFA.accepts (d : DFA) (word : String) : Bool :=
  acceptsFrom d d.start_state word.toList

abbrev Pair := String × String

abbrev ParentMap := List (Pair × (Pair × String))

/-- The loop of `reconstruct_word`: walk parent links back from `current`
until the start pair (or a missing link), collecting symbols; the collected
list is reversed at the end.  The Python `while` is modelled with fuel
`parent.length`, which the BFS invariants show is always sufficient. -/
def reconstructAux (parent : ParentMap) (start : Pair) :
    Nat → Pair → List String → List String
  | 0, _, path => path.reverse
  | fuel + 1, current, path =>
    if current = start then path.reverse
    else
      match assocFind parent current with
      | none => path.reverse
      | some (prev, symbol) => reconstructAux parent start fuel prev (path ++ [symbol])

/-- `reconstruct_word(parent, start, end)`: the joined symbols of the parent
chain from `finish` back to `start`, in input order. -/
def reconstruct_word (parent : ParentMap) (start finish : Pair) : String :=
  String.join (reconstructAux parent start parent.length finish [])

/-- The body of `for a in union_alphabet` inside the BFS of `are_equivalent`:
look up both successors, skip the symbol when either is missing, and
otherwise enqueue, mark visited and record the parent link when the successor
pair is new.  The accumulator is (queue, visited, parent). -/
def expandPair (d1 d2 : DFA) (q1 q2 : String)
    (acc : List Pair × List Pair × ParentMap) (a : String) :
    List Pair × List Pair × ParentMap :=
  match assocFind d1.transitions (q1, a), assocFind d2.transitions (q2, a) with
  | some next1, some next2 =>
    if (next1, next2) ∈ acc.2.1 then acc
    else (acc.1 ++ [(next1, next2)], acc.2.1 ++ [(next1, next2)],
      ((next1, next2), ((q1, q2), a)) :: acc.2.2)
  | _, _ => acc

/-- The `while queue` loop of `are_equivalent`.  Dequeue a pair; if its
acceptance statuses differ, return NOT-EQUIVALENT with the reconstructed
witness; otherwise expand it over every symbol and continue.  The Python
loop always terminates because each pair is enqueued at most once; the fuel
passed by `are_equivalent` is proved sufficient for valid automatons. -/
def bfsLoop (d1 d2 : DFA) (sigma : List String) (start_pair : Pair) :
    Nat → List Pair → List Pair → ParentMap → Option (Bool × Option String)
  | 0, _, _, _ => none
  | _ + 1, [], _, _ => some (true, none)
  | fuel + 1, (q1, q2) :: rest, visited, parent =>
    let in1 := decide (q1 ∈ d1.accept_states)
    let in2 := decide (q2 ∈ d2.accept_states)
    if in1 ≠ in2 then
      some (false, some (reconstruct_word parent start_pair (q1, q2)))
    else
      let nst := sigma.foldl (expandPair d1 d2 q1 q2) (rest, visited, parent)
      bfsLoop d1 d2 sigma start_pair fuel nst.1 nst.2.1 nst.2.2

/-- `dfa1.alphabet.union(dfa2.alphabet)` on the list model: keep the first
list and append the members of the second that are new. -/
def listUnion (l1 l2 : List String) : List String :=
  l1 ++ l2.filter (fun s => decide (s ∉ l1))

/-- Steps 1 and 2 of `are_equivalent`: assign the union alphabet to both
automatons (the documented mutation) and complete both with a sink. -/
def preprocess (dfa1 dfa2 : DFA) : DFA × DFA :=
  let union_alphabet := listUnion dfa1.alphabet dfa2.alphabet
  ({ dfa1 with alphabet := union_alphabet }.complete_with_sink,
   { dfa2 with alphabet := union_alphabet }.complete_with_sink)

/-- Fuel for the BFS: one more than the product-state bound
`|states1| * |states2|`, which bounds the number of loop iterations for
valid automatons. -/
def bfsFuel (d1 d2 : DFA) : Nat := d1.states.length * d2.states.length + 1

/-- `are_equivalent(dfa1, dfa2)`: union the alphabets, complete both
automatons, and run the product BFS from the pair of start states. -/
def are_equivalent (dfa1 dfa2 : DFA) : Option (Bool × Option String) :=
  let d1 := (preprocess dfa1 dfa2).1
  let d2 := (preprocess dfa1 dfa2).2
  let start_pair := (d1.start_state, d2.start_state)
  bfsLoop d1 d2 (listUnion dfa1.alphabet dfa2.alphabet) start_pair (bfsFuel d1 d2)
    [start_pair] [start_pair] []

/-! Specification-side definitions used to state the claims. -/

/-- The construction invariants of the spec (section 3): the start state is a
state, accepting states are states, and every transition entry joins states
over alphabet symbols. -/
def Valid (d : DFA) : Prop :=
  d.start_state ∈ d.states ∧
  (∀ q ∈ d.accept_states, q ∈ d.states) ∧
  (∀ e ∈ d.transitions, e.1.1 ∈ d.states ∧ e.1.2 ∈ d.alphabet ∧ e.2 ∈ d.states)

instance (d : DFA) : Decidable (Valid d) := by
  unfold Valid; infer_instance

/-- The state reached after consuming a list of characters, or `none` when a
transition is missing somewhere along the way. -/
def runWord (d : DFA) : String → List Char → Option String
  | q, [] => some q
  | q, ch :: rest =>
    match assocFind d.transitions (q, ch.toString) with
    | none => none
    | some next => runWord d next rest

/-- The state reached after consuming a list of whole alphabet symbols. -/
def runSyms (d : DFA) : String → List String → Option String
  | q, [] => some q
  | q, s :: rest =>
    match assocFind d.transitions (q, s) with
    | none => none
    | some next => runSyms d next rest

/-- The joint successor of a product pair on one symbol, defined when both
automatons have the transition. -/
def nextPair (d1 d2 : DFA) (p : Pair) (a : String) : Option Pair :=
  match assocFind d1.transitions (p.1, a), assocFind d2.transitions (p.2, a) with
  | some n1, some n2 => some (n1, n2)
  | _, _ => none

/-- The product run over a list of symbols. -/
def runPair (d1 d2 : DFA) : Pair → List String → Option Pair
  | p, [] => some p
  | p, a :: rest =>
    match nextPair d1 d2 p a with
    | none => none
    | some y => runPair d1 d2 y rest

/-- The two components of a product pair agree on acceptance. -/
def accAgree (d1 d2 : DFA) (p : Pair) : Prop :=
  (p.1 ∈ d1.accept_states ↔ p.2 ∈ d2.accept_states)

instance (d1 d2 : DFA) (p : Pair) : Decidable (accAgree d1 d2 p) := by
  unfold accAgree; infer_instance

/-- A word whose symbols all come from `sigma`. -/
def WordOver (sigma : List String) (v : List String) : Prop := ∀ a ∈ v, a ∈ sigma

instance (sigma v : List String) : Decidable (WordOver sigma v) := by
  unfold WordOver; infer_instance

/-- The product-state bound of the spec: the number of distinct pairs of
states, `|A.states| x |B.states|` counted without duplicates. -/
def PB (d1 d2 : DFA) : Nat := (d1.states.toFinset ×ˢ d2.states.toFinset).card

/-- Update a ghost discovery-word assignment at one pair. -/
def extendWd (wd : Pair → List String) (y : Pair) (w : List String) : Pair → List String :=
  fun x => if x = y then w else wd x

/-- Soundness of an EQUIVALENT verdict: every word over `sigma` drives the
product to a pair whose components agree on acceptance. -/
def EquivSound (d1 d2 : DFA) (sigma : List String) (startp : Pair) : Prop :=
  ∀ v, WordOver sigma v → ∃ r, runPair d1 d2 startp v = some r ∧ accAgree d1 d2 r

/-- Soundness of a NOT-EQUIVALENT verdict with witness `w`: `w` is the join
of a symbol word over `sigma` that drives the product to a disagreeing pair,
and every strictly shorter symbol word reaches an agreeing pair. -/
def WitnessSound (d1 d2 : DFA) (sigma : List String) (startp : Pair) (w : String) : Prop :=
  ∃ ws p, w = String.join ws ∧ WordOver sigma ws ∧
    runPair d1 d2 startp ws = some p ∧ ¬ accAgree d1 d2 p ∧
    ∀ v, WordOver sigma v → v.length < ws.length →
      ∃ r, runPair d1 d2 startp v = some r ∧ accAgree d1 d2 r

/-- What the BFS may return: a sound EQUIVALENT verdict or a sound
NOT-EQUIVALENT verdict with its witness. -/
def GoodRes (d1 d2 : DFA) (sigma : List String) (startp : Pair)
    (res : Bool × Option String) : Prop :=
  (res = (true, none) ∧ EquivSound d1 d2 sigma startp) ∨
  (∃ w, res = (false, some w) ∧ WitnessSound d1 d2 sigma startp w)

/-- The loop invariant of the BFS of `are_equivalent`.  `visited` is the set
of pairs ever enqueued, in enqueue order; it splits into the pairs already
dequeued (`done`, in dequeue order) followed by the current queue.  `wd` is a
ghost assignment of the discovery word of each visited pair: the word spelled
by its parent chain. -/
structure BfsInv (d1 d2 : DFA) (sigma : List String) (startp : Pair)
    (done queue visited : List Pair) (parent : ParentMap)
    (wd : Pair → List String) : Prop where
  hsplit : visited = done ++ queue
  hnodup : visited.Nodup
  hprod : ∀ p ∈ visited, p.1 ∈ d1.states ∧ p.2 ∈ d2.states
  hstart : startp ∈ visited
  hwdstart : wd startp = []
  hrun : ∀ p ∈ visited, runPair d1 d2 startp (wd p) = some p
  hsig : ∀ p ∈ visited, WordOver sigma (wd p)
  hpsome : ∀ p ∈ visited, p ≠ startp → (assocFind parent p).isSome
  hpmem : ∀ p pr a, assocFind parent p = some (pr, a) →
    p ∈ visited ∧ p ≠ startp ∧ pr ∈ visited ∧ a ∈ sigma ∧ wd p = wd pr ++ [a]
  hplen : visited.length = parent.length + 1
  hwdle : ∀ p ∈ visited, (wd p).length ≤ parent.length
  hqpw : List.Pairwise (fun x y => (wd x).length ≤ (wd y).length) queue
  hwin : ∀ p ∈ visited, ∀ q ∈ queue, (wd p).length ≤ (wd q).length + 1
  hdagree : ∀ p ∈ done, accAgree d1 d2 p
  hdclosed : ∀ p ∈ done, ∀ a ∈ sigma, ∀ y, nextPair d1 d2 p a = some y →
    y ∈ visited ∧ (wd y).length ≤ (wd p).length + 1

/-- The invariant of the inner `for a in union_alphabet` fold while the
dequeued pair `p` is being expanded.  `P` collects the symbols already
processed; the state `st` is (queue, visited, parent). -/
structure MidInv (d1 d2 : DFA) (sigma : List String) (startp : Pair)
    (done : List Pair) (p : Pair) (P : String → Prop)
    (st : List Pair × List Pair × ParentMap) (wd : Pair → List String) : Prop where
  msplit : st.2.1 = (done ++ [p]) ++ st.1
  mnodup : st.2.1.Nodup
  mprod : ∀ x ∈ st.2.1, x.1 ∈ d1.states ∧ x.2 ∈ d2.states
  mstart : startp ∈ st.2.1
  mwdstart : wd startp = []
  mrun : ∀ x ∈ st.2.1, runPair d1 d2 startp (wd x) = some x
  msig : ∀ x ∈ st.2.1, WordOver sigma (wd x)
  mpsome : ∀ x ∈ st.2.1, x ≠ startp → (assocFind st.2.2 x).isSome
  mpmem : ∀ x pr a, assocFind st.2.2 x = some (pr, a) →
    x ∈ st.2.1 ∧ x ≠ startp ∧ pr ∈ st.2.1 ∧ a ∈ sigma ∧ wd x = wd pr ++ [a]
  mplen : st.2.1.length = st.2.2.length + 1
  mwdle : ∀ x ∈ st.2.1, (wd x).length ≤ st.2.2.length
  mqpw : List.Pairwise (fun x y => (wd x).length ≤ (wd y).length) st.1
  mfq : ∀ q ∈ st.1, (wd p).length ≤ (wd q).length
  mvf : ∀ x ∈ st.2.1, (wd x).length ≤ (wd p).length + 1
  mdagree : ∀ x ∈ done ++ [p], accAgree d1 d2 x
  mdclosedOld : ∀ x ∈ done, ∀ a ∈ sigma, ∀ y, nextPair d1 d2 x a = some y →
    y ∈ st.2.1 ∧ (wd y).length ≤ (wd x).length + 1
  mdclosedP : ∀ a, P a → ∀ y, nextPair d1 d2 p a = some y →
    y ∈ st.2.1 ∧ (wd y).length ≤ (wd p).length + 1

/-- The reachable loop states of the BFS of `are_equivalent`, as a relation
on (queue, visited, parent): the initial state, and one `while` iteration
from a reachable state whose dequeued pair agrees on acceptance. -/
inductive BfsReaches (d1 d2 : DFA) (sigma : List String) (startp : Pair) :
    List Pair × List Pair × ParentMap → Prop where
  | init : BfsReaches d1 d2 sigma startp ([startp], [startp], [])
  | step : ∀ {q1 q2 : String} {rest visited : List Pair} {parent : ParentMap},
      BfsReaches d1 d2 sigma startp ((q1, q2) :: rest, visited, parent) →
      decide (q1 ∈ d1.accept_states) = decide (q2 ∈ d2.accept_states) →
      BfsReaches d1 d2 sigma startp
        (sigma.foldl (expandPair d1 d2 q1 q2) (rest, visited, parent))

/-! Concrete automatons used as test inputs for the claims. -/

/-- A one-state automaton accepting nothing. -/
def dRejAll : DFA where
  states := ["s0"]
  alphabet := ["0"]
  start_state := "s0"
  accept_states := []
  transitions := [(("s0", "0"), "s0")]

/-- A one-state automaton accepting every string over `{0}`. -/
def dAccAll : DFA where
  states := ["t0"]
  alphabet := ["0"]
  start_state := "t0"
  accept_states := ["t0"]
  transitions := [(("t0", "0"), "t0")]

/-- An automaton over the two-character symbol `"ab"` that accepts exactly
the nonempty symbol words; the BFS sees its token transitions, but
`accepts` reads words one character at a time. -/
def dTokA : DFA where
  states := ["q0", "q1"]
  alphabet := ["ab"]
  start_state := "q0"
  accept_states := ["q1"]
  transitions := [(("q0", "ab"), "q1"), (("q1", "ab"), "q1")]

/-- A one-state automaton over the symbol `"ab"` accepting nothing. -/
def dTokB : DFA where
  states := ["p0"]
  alphabet := ["ab"]
  start_state := "p0"
  accept_states := []
  transitions := [(("p0", "ab"), "p0")]

/-- An automaton with a two-character symbol `"bc"` and a one-character
symbol `"a"`: the token path `bc bc` (4 characters) reaches an accepting
state in two BFS steps, while the character path `aaa` (3 characters) needs
three. -/
def dMix : DFA where
  states := ["x0", "x1", "x2", "y1", "y2", "y3"]
  alphabet := ["bc", "a"]
  start_state := "x0"
  accept_states := ["x2", "y3"]
  transitions := [(("x0", "bc"), "x1"), (("x1", "bc"), "x2"), (("x0", "a"), "y1"),
    (("y1", "a"), "y2"), (("y2", "a"), "y3")]

/-- A one-state automaton over the same mixed alphabet accepting nothing. -/
def dMixB : DFA where
  states := ["p"]
  alphabet := ["bc", "a"]
  start_state := "p"
  accept_states := []
  transitions := [(("p", "bc"), "p"), (("p", "a"), "p")]

/-- A valid incomplete automaton one of whose user-supplied states is named
`"SINK_STATE"` and is accepting: the reserved sink identifier collides. -/
def dCollide : DFA where
  states := ["q0", "SINK_STATE"]
  alphabet := ["a"]
  start_state := "q0"
  accept_states := ["SINK_STATE"]
  transitions := []

/-! Association-list lemmas. -/

theorem assocFind_append_of_isSome {α β : Type} [DecidableEq α]
    (l1 l2 : List (α × β)) (k : α) (h : (assocFind l1 k).isSome) :
    assocFind (l1 ++ l2) k = assocFind l1 k := by
  induction l1 with
  | nil => simp [assocFind] at h
  | cons e rest ih =>
    obtain ⟨k', v'⟩ := e
    simp only [List.cons_append, assocFind] at h ⊢
    by_cases hk : k' = k
    · simp [hk]
    · simp only [if_neg hk] at h ⊢
      exact ih h

theorem assocFind_append_of_none {α β : Type} [DecidableEq α]
    (l1 l2 : List (α × β)) (k : α) (h : assocFind l1 k = none) :
    assocFind (l1 ++ l2) k = assocFind l2 k := by
  induction l1 with
  | nil => rfl
  | cons e rest ih =>
    obtain ⟨k', v'⟩ := e
    simp only [List.cons_append, assocFind] at h ⊢
    by_cases hk : k' = k
    · simp [hk] at h
    · simp only [if_neg hk] at h ⊢
      exact ih h

theorem assocFind_mem {α β : Type} [DecidableEq α]
    (l : List (α × β)) (k : α) (v : β) (h : assocFind l k = some v) : (k, v) ∈ l := by
  induction l with
  | nil => simp [assocFind] at h
  | cons e rest ih =>
    obtain ⟨k', v'⟩ := e
    by_cases hk : k' = k
    · subst hk
      have h2 : v' = v := by simpa [assocFind] using h
      rw [← h2]
      exact List.mem_cons_self _ _
    · simp only [assocFind, if_neg hk] at h
      exact List.mem_cons_of_mem _ (ih h)

theorem assocFind_eq_none {α β : Type} [DecidableEq α]
    (l : List (α × β)) (k : α) (h : ∀ e ∈ l, e.1 ≠ k) : assocFind l k = none := by
  induction l with
  | nil => rfl
  | cons e rest ih =>
    obtain ⟨k', v'⟩ := e
    have hk : k' ≠ k := h (k', v') (List.mem_cons_self _ _)
    simp only [assocFind, if_neg hk]
    exact ih fun e he => h e (List.mem_cons_of_mem _ he)

/-! Lemmas about the two filling loops of `complete_with_sink`. -/

theorem fillRow_nil (s q : String) (t : List ((String × String) × String)) :
    fillRow s q t [] = t := rfl

theorem fillRow_cons (s q : String) (t : List ((String × String) × String))
    (a : String) (A : List String) :
    fillRow s q t (a :: A) =
      fillRow s q (if (assocFind t (q, a)).isSome then t else t ++ [((q, a), s)]) A := rfl

theorem fillAll_nil (s : String) (t : List ((String × String) × String))
    (A : List String) : fillAll s t [] A = t := rfl

theorem fillAll_cons (s : String) (t : List ((String × String) × String))
    (st : String) (sts A : List String) :
    fillAll s t (st :: sts) A = fillAll s (fillRow s st t A) sts A := rfl

theorem fillRow_lookup_of_isSome (s q : String) (A : List String) :
    ∀ (t : List ((String × String) × String)) (k : String × String),
      (assocFind t k).isSome → assocFind (fillRow s q t A) k = assocFind t k := by
  induction A with
  | nil => intro t k _; rfl
  | cons a A ih =>
    intro t k hk
    rw [fillRow_cons]
    by_cases hqa : (assocFind t (q, a)).isSome
    · rw [if_pos hqa]
      exact ih t k hk
    · rw [if_neg hqa]
      have h1 : assocFind (t ++ [((q, a), s)]) k = assocFind t k :=
        assocFind_append_of_isSome _ _ _ hk
      rw [ih _ k (by rw [h1]; exact hk), h1]

theorem fillRow_lookup_cases (s q : String) (A : List String) :
    ∀ (t : List ((String × String) × String)) (k : String × String),
      assocFind (fillRow s q t A) k = assocFind t k ∨
      (assocFind t k = none ∧ assocFind (fillRow s q t A) k = some s) := by
  induction A with
  | nil => intro t k; left; rfl
  | cons a A ih =>
    intro t k
    rw [fillRow_cons]
    by_cases hqa : (assocFind t (q, a)).isSome
    · rw [if_pos hqa]
      exact ih t k
    · rw [if_neg hqa]
      by_cases hk : (assocFind t k).isSome
      · left
        have h1 : assocFind (t ++ [((q, a), s)]) k = assocFind t k :=
          assocFind_append_of_isSome _ _ _ hk
        rw [fillRow_lookup_of_isSome _ _ _ _ _ (by rw [h1]; exact hk), h1]
      · have hnone : assocFind t k = none := Option.not_isSome_iff_eq_none.mp hk
        rcases ih (t ++ [((q, a), s)]) k with h | ⟨h1, h2⟩
        · rw [h, assocFind_append_of_none _ _ _ hnone]
          by_cases hkq : (q, a) = k
          · right
            refine ⟨hnone, ?_⟩
            simp [assocFind, hkq]
          · left
            rw [hnone]
            simp [assocFind, hkq]
        · right
          exact ⟨hnone, h2⟩

theorem fillRow_total (s q : String) (A : List String) :
    ∀ (t : List ((String × String) × String)) (a : String), a ∈ A →
      (assocFind (fillRow s q t A) (q, a)).isSome := by
  induction A with
  | nil => intro t a ha; simp at ha
  | cons b A ih =>
    intro t a ha
    rw [fillRow_cons]
    rcases List.mem_cons.mp ha with h | h
    · subst h
      by_cases hqa : (assocFind t (q, a)).isSome
      · rw [if_pos hqa, fillRow_lookup_of_isSome _ _ _ _ _ hqa]
        exact hqa
      · rw [if_neg hqa]
        have hsome : (assocFind (t ++ [((q, a), s)]) (q, a)).isSome := by
          rw [assocFind_append_of_none _ _ _ (Option.not_isSome_iff_eq_none.mp hqa)]
          simp [assocFind]
        rw [fillRow_lookup_of_isSome _ _ _ _ _ hsome]
        exact hsome
    · by_cases hqb : (assocFind t (q, b)).isSome
      · rw [if_pos hqb]; exact ih _ a h
      · rw [if_neg hqb]; exact ih _ a h

theorem fillRow_mem (s q : String) (A : List String) :
    ∀ (t : List ((String × String) × String)) (e : (String × String) × String),
      e ∈ fillRow s q t A → e ∈ t ∨ e.2 = s := by
  induction A with
  | nil => intro t e he; left; exact he
  | cons a A ih =>
    intro t e he
    rw [fillRow_cons] at he
    by_cases hqa : (assocFind t (q, a)).isSome
    · rw [if_pos hqa] at he
      exact ih t e he
    · rw [if_neg hqa] at he
      rcases ih _ e he with h | h
      · rcases List.mem_append.mp h with h' | h'
        · left; exact h'
        · right
          simp only [List.mem_singleton] at h'
          rw [h']
      · right; exact h

theorem fillAll_lookup_of_isSome (s : String) (A : List String) :
    ∀ (sts : List String) (t : List ((String × String) × String)) (k : String × String),
      (assocFind t k).isSome → assocFind (fillAll s t sts A) k = assocFind t k := by
  intro sts
  induction sts with
  | nil => intro t k _; rfl
  | cons st sts ih =>
    intro t k hk
    rw [fillAll_cons]
    have h1 : assocFind (fillRow s st t A) k = assocFind t k :=
      fillRow_lookup_of_isSome _ _ _ _ _ hk
    rw [ih _ k (by rw [h1]; exact hk), h1]

theorem fillAll_lookup_cases (s : String) (A : List String) :
    ∀ (sts : List String) (t : List ((String × String) × String)) (k : String × String),
      assocFind (fillAll s t sts A) k = assocFind t k ∨
      (assocFind t k = none ∧ assocFind (fillAll s t sts A) k = some s) := by
  intro sts
  induction sts with
  | nil => intro t k; left; rfl
  | cons st sts ih =>
    intro t k
    rw [fillAll_cons]
    rcases fillRow_lookup_cases s st A t k with hrow | ⟨hrow1, hrow2⟩
    · rcases ih (fillRow s st t A) k with h | ⟨h1, h2⟩
      · left; rw [h, hrow]
      · right; exact ⟨by rw [← hrow]; exact h1, h2⟩
    · right
      refine ⟨hrow1, ?_⟩
      rw [fillAll_lookup_of_isSome _ _ _ _ _ (by rw [hrow2]; rfl), hrow2]

theorem fillAll_total (s : String) (A : List String) :
    ∀ (sts : List String) (t : List ((String × String) × String)) (q a : String),
      q ∈ sts → a ∈ A → (assocFind (fillAll s t sts A) (q, a)).isSome := by
  intro sts
  induction sts with
  | nil => intro t q a hq _; simp at hq
  | cons st sts ih =>
    intro t q a hq ha
    rw [fillAll_cons]
    rcases List.mem_cons.mp hq with h | h
    · subst h
      have h1 : (assocFind (fillRow s q t A) (q, a)).isSome := fillRow_total _ _ _ _ _ ha
      rw [fillAll_lookup_of_isSome _ _ _ _ _ h1]
      exact h1
    · exact ih _ q a h ha

theorem fillAll_mem (s : String) (A : List String) :
    ∀ (sts : List String) (t : List ((String × String) × String))
      (e : (String × String) × String),
      e ∈ fillAll s t sts A → e ∈ t ∨ e.2 = s := by
  intro sts
  induction sts with
  | nil => intro t e he; left; exact he
  | cons st sts ih =>
    intro t e he
    rw [fillAll_cons] at he
    rcases ih _ e he with h | h
    · exact fillRow_mem _ _ _ _ _ h
    · right; exact h

/-! Lemmas about `complete_with_sink`. -/

theorem is_complete_iff (d : DFA) :
    d.is_complete = true ↔
      ∀ q ∈ d.states, ∀ a ∈ d.alphabet, (assocFind d.transitions (q, a)).isSome := by
  simp [DFA.is_complete, List.all_eq_true]

theorem complete_eq_of_complete (d : DFA) (h : d.is_complete = true) :
    d.complete_with_sink = d := by
  simp [DFA.complete_with_sink, h]

theorem complete_eq_of_not (d : DFA) (h : ¬ d.is_complete = true) :
    d.complete_with_sink = { d with
      states := if "SINK_STATE" ∈ d.states then d.states else d.states ++ ["SINK_STATE"],
      transitions := fillAll "SINK_STATE"
        (fillRow "SINK_STATE" "SINK_STATE" d.transitions d.alphabet)
        (if "SINK_STATE" ∈ d.states then d.states else d.states ++ ["SINK_STATE"])
        d.alphabet } := by
  simp [DFA.complete_with_sink, h]

theorem complete_alphabet (d : DFA) : d.complete_with_sink.alphabet = d.alphabet := by
  by_cases h : d.is_complete = true
  · rw [complete_eq_of_complete d h]
  · rw [complete_eq_of_not d h]

theorem complete_start (d : DFA) : d.complete_with_sink.start_state = d.start_state := by
  by_cases h : d.is_complete = true
  · rw [complete_eq_of_complete d h]
  · rw [complete_eq_of_not d h]

theorem complete_accept (d : DFA) :
    d.complete_with_sink.accept_states = d.accept_states := by
  by_cases h : d.is_complete = true
  · rw [complete_eq_of_complete d h]
  · rw [complete_eq_of_not d h]

theorem complete_states_superset (d : DFA) (q : String) (hq : q ∈ d.states) :
    q ∈ d.complete_with_sink.states := by
  by_cases h : d.is_complete = true
  · rw [complete_eq_of_complete d h]; exact hq
  · rw [complete_eq_of_not d h]
    by_cases hs : "SINK_STATE" ∈ d.states
    · simpa [hs] using hq
    · simp only [if_neg hs]
      exact List.mem_append_left _ hq

theorem complete_states_cases (d : DFA) (q : String)
    (hq : q ∈ d.complete_with_sink.states) : q ∈ d.states ∨ q = "SINK_STATE" := by
  by_cases h : d.is_complete = true
  · rw [complete_eq_of_complete d h] at hq; left; exact hq
  · rw [complete_eq_of_not d h] at hq
    by_cases hs : "SINK_STATE" ∈ d.states
    · simp only [if_pos hs] at hq; left; exact hq
    · simp only [if_neg hs] at hq
      rcases List.mem_append.mp hq with h' | h'
      · left; exact h'
      · right; simpa using h'

theorem complete_lookup_cases (d : DFA) (k : String × String) :
    assocFind d.complete_with_sink.transitions k = assocFind d.transitions k ∨
    (assocFind d.transitions k = none ∧
      assocFind d.complete_with_sink.transitions k = some "SINK_STATE") := by
  by_cases h : d.is_complete = true
  · rw [complete_eq_of_complete d h]; left; rfl
  · rw [complete_eq_of_not d h]
    simp only
    rcases fillAll_lookup_cases "SINK_STATE" d.alphabet _
      (fillRow "SINK_STATE" "SINK_STATE" d.transitions d.alphabet) k with hall | ⟨hall1, hall2⟩
    · rcases fillRow_lookup_cases "SINK_STATE" "SINK_STATE" d.alphabet d.transitions k with
        hrow | ⟨hrow1, hrow2⟩
      · left; rw [hall, hrow]
      · right; exact ⟨hrow1, by rw [hall, hrow2]⟩
    · right
      refine ⟨?_, hall2⟩
      rcases fillRow_lookup_cases "SINK_STATE" "SINK_STATE" d.alphabet d.transitions k with
        hrow | ⟨hrow1, _⟩
      · rw [← hrow]; exact hall1
      · exact hrow1

theorem complete_lookup_of_isSome (d : DFA) (k : String × String)
    (h : (assocFind d.transitions k).isSome) :
    assocFind d.complete_with_sink.transitions k = assocFind d.transitions k := by
  rcases complete_lookup_cases d k with h' | ⟨h1, _⟩
  · exact h'
  · rw [h1] at h; simp at h

theorem complete_total (d : DFA) (q a : String) (hq : q ∈ d.complete_with_sink.states)
    (ha : a ∈ d.alphabet) :
    (assocFind d.complete_with_sink.transitions (q, a)).isSome := by
  by_cases h : d.is_complete = true
  · rw [complete_eq_of_complete d h] at hq ⊢
    exact (is_complete_iff d).mp h q hq a ha
  · rw [complete_eq_of_not d h] at hq ⊢
    exact fillAll_total _ _ _ _ _ _ hq ha

theorem complete_is_complete (d : DFA) : d.complete_with_sink.is_complete = true := by
  rw [is_complete_iff]
  intro q hq a ha
  rw [complete_alphabet] at ha
  exact complete_total d q a hq ha

theorem complete_sink_mem (d : DFA) (h : ¬ d.is_complete = true) :
    "SINK_STATE" ∈ d.complete_with_sink.states := by
  rw [complete_eq_of_not d h]
  by_cases hs : "SINK_STATE" ∈ d.states
  · simp only [if_pos hs]
    exact hs
  · simp [hs]

theorem complete_trans_mem (d : DFA) (e : (String × String) × String)
    (he : e ∈ d.complete_with_sink.transitions) :
    e ∈ d.transitions ∨
      (e.2 = "SINK_STATE" ∧ "SINK_STATE" ∈ d.complete_with_sink.states) := by
  by_cases h : d.is_complete = true
  · rw [complete_eq_of_complete d h] at he; left; exact he
  · have hsink := complete_sink_mem d h
    rw [complete_eq_of_not d h] at he
    simp only at he
    rcases fillAll_mem _ _ _ _ _ he with h' | h'
    · rcases fillRow_mem _ _ _ _ _ h' with h2 | h2
      · left; exact h2
      · right; exact ⟨h2, hsink⟩
    · right; exact ⟨h', hsink⟩

/-- C7: calling `complete_with_sink` twice yields exactly the same state set
and transition function as calling it once; the second call is a no-op
because the automaton is already complete. -/
theorem claim7_completion_idempotent (d : DFA) :
    d.complete_with_sink.complete_with_sink.states = d.complete_with_sink.states ∧
    d.complete_with_sink.complete_with_sink.transitions =
      d.complete_with_sink.transitions := by
  rw [complete_eq_of_complete _ (complete_is_complete d)]
  exact ⟨rfl, rfl⟩

theorem acceptsFrom_eq_runWord (d : DFA) :
    ∀ (cs : List Char) (q : String),
      acceptsFrom d q cs = match runWord d q cs with
        | none => false
        | some r => decide (r ∈ d.accept_states) := by
  intro cs
  induction cs with
  | nil => intro q; rfl
  | cons ch rest ih =>
    intro q
    simp only [acceptsFrom, runWord]
    cases assocFind d.transitions (q, ch.toString) with
    | none => rfl
    | some next => exact ih next

/-- C8: `accepts` returns false immediately when a transition is missing at
some position, and otherwise returns whether the state reached after the
whole word is accepting. -/
theorem claim8_accepts_semantics (d : DFA) (w : String) :
    (d.accepts w = match runWord d d.start_state w.toList with
      | none => false
      | some q => decide (q ∈ d.accept_states)) ∧
    ∀ (q : String) (ch : Char) (rest : List Char),
      assocFind d.transitions (q, ch.toString) = none →
      acceptsFrom d q (ch :: rest) = false := by
  constructor
  · exact acceptsFrom_eq_runWord d w.toList d.start_state
  · intro q ch rest h
    simp [acceptsFrom, h]

/-- C10: the mutations of `are_equivalent` (modelled by `preprocess`) leave
the start state and the accepting set of both automatons unchanged. -/
theorem claim10_frame (A B : DFA) :
    (preprocess A B).1.start_state = A.start_state ∧
    (preprocess A B).1.accept_states = A.accept_states ∧
    (preprocess A B).2.start_state = B.start_state ∧
    (preprocess A B).2.accept_states = B.accept_states := by
  refine ⟨?_, ?_, ?_, ?_⟩ <;>
    simp [preprocess, complete_start, complete_accept]

/-- C5 is violated by the code: `complete_with_sink` uses the fixed
identifier `"SINK_STATE"`, so on a valid incomplete automaton that already
has a user state of that name (here also accepting) no new state is
introduced at all. -/
theorem claim5_fixed_sink_collides :
    dCollide.is_complete = false ∧
    Valid dCollide ∧
    dCollide.complete_with_sink.states = dCollide.states ∧
    "SINK_STATE" ∈ dCollide.accept_states := by
  refine ⟨rfl, by decide, ?_, by decide⟩
  rfl

theorem sink_no_entry (d : DFA) (hv : Valid d) (hs : "SINK_STATE" ∉ d.states) (x : String) :
    assocFind d.transitions ("SINK_STATE", x) = none := by
  apply assocFind_eq_none
  intro e he hk
  have h1 := (hv.2.2 e he).1
  rw [hk] at h1
  exact hs h1

theorem sink_absorb (d : DFA) (hv : Valid d) (hs : "SINK_STATE" ∉ d.states) :
    ∀ cs : List Char, acceptsFrom d.complete_with_sink "SINK_STATE" cs = false := by
  intro cs
  induction cs with
  | nil =>
    simp only [acceptsFrom, complete_accept]
    have hna : "SINK_STATE" ∉ d.accept_states := fun hmem => hs (hv.2.1 _ hmem)
    simp [hna]
  | cons ch rest ih =>
    simp only [acceptsFrom]
    rcases complete_lookup_cases d ("SINK_STATE", ch.toString) with h | ⟨_, h2⟩
    · rw [h, sink_no_entry d hv hs]
    · rw [h2]
      exact ih

theorem acceptsFrom_complete (d : DFA) (hv : Valid d) (hs : "SINK_STATE" ∉ d.states) :
    ∀ (cs : List Char) (current : String), current ∈ d.states →
      acceptsFrom d.complete_with_sink current cs = acceptsFrom d current cs := by
  intro cs
  induction cs with
  | nil =>
    intro current _
    simp only [acceptsFrom, complete_accept]
  | cons ch rest ih =>
    intro current hc
    simp only [acceptsFrom]
    rcases complete_lookup_cases d (current, ch.toString) with h | ⟨h1, h2⟩
    · rw [h]
      cases hfind : assocFind d.transitions (current, ch.toString) with
      | none => rfl
      | some next =>
        have hnext : next ∈ d.states := (hv.2.2 _ (assocFind_mem _ _ _ hfind)).2.2
        exact ih next hnext
    · rw [h1, h2]
      exact sink_absorb d hv hs rest

/-- C4 amended: completion preserves acceptance of every word over the
original alphabet, provided that no user state is named `"SINK_STATE"` (the
identifier the code reserves for the sink).  Without that proviso the claim
fails, see the counterexample. -/
theorem claim4_amended (d : DFA) (hv : Valid d) (hs : "SINK_STATE" ∉ d.states) :
    ∀ ws : List String, WordOver d.alphabet ws →
      d.complete_with_sink.accepts (String.join ws) = d.accepts (String.join ws) := by
  intro ws _
  unfold DFA.accepts
  rw [complete_start]
  exact acceptsFrom_complete d hv hs _ _ hv.1

/-- C4 as stated is false: on the valid automaton `dCollide`, whose state
`"SINK_STATE"` is accepting, completion changes the acceptance of the
one-symbol word `"a"` over the original alphabet from false to true. -/
theorem claim4_counterexample :
    Valid dCollide ∧ WordOver dCollide.alphabet ["a"] ∧
    ¬ (dCollide.complete_with_sink.accepts (String.join ["a"]) =
       dCollide.accepts (String.join ["a"])) := by
  refine ⟨by decide, by decide, ?_⟩
  decide

/-- Witness for C4: the amended theorem applied to the concrete automaton
`dRejAll` and the word `"0"`. -/
theorem claim4_witness :
    dRejAll.complete_with_sink.accepts (String.join ["0"]) =
      dRejAll.accepts (String.join ["0"]) :=
  claim4_amended dRejAll (by decide) (by decide) ["0"] (by decide)

/-! Words as strings versus words as symbol lists. -/

theorem char_toString_data (c : Char) : (Char.toString c).data = [c] := rfl

theorem eq_char_toString_of_data (s : String) (c : Char) (h : s.data = [c]) :
    s = c.toString := by
  apply String.ext
  rw [h]
  rfl

theorem exists_char_of_len_one (s : String) (h : s.length = 1) :
    ∃ c : Char, s = c.toString := by
  obtain ⟨c, hc⟩ := List.length_eq_one.mp h
  exact ⟨c, eq_char_toString_of_data s c hc⟩

theorem join_length_single (ws : List String) (h : ∀ s ∈ ws, s.length = 1) :
    (String.join ws).length = ws.length := by
  induction ws with
  | nil => rfl
  | cons s rest ih =>
    show (String.join (s :: rest)).data.length = _
    rw [String.data_join, List.map_cons, List.flatten_cons, List.length_append]
    have h1 : s.data.length = 1 := h s (List.mem_cons_self _ _)
    have h2 : (String.join rest).length = ((rest.map String.data).flatten).length := by
      show (String.join rest).data.length = _
      rw [String.data_join]
    rw [h1, ← h2, ih (fun x hx => h x (List.mem_cons_of_mem _ hx))]
    simp [Nat.add_comm]

theorem acceptsFrom_join (d : DFA) :
    ∀ (ws : List String), (∀ s ∈ ws, s.length = 1) → ∀ q : String,
      acceptsFrom d q (String.join ws).toList =
        match runSyms d q ws with
        | none => false
        | some r => decide (r ∈ d.accept_states) := by
  intro ws
  induction ws with
  | nil =>
    intro _ q
    rfl
  | cons s rest ih =>
    intro h q
    obtain ⟨c, hc⟩ := exists_char_of_len_one s (h s (List.mem_cons_self _ _))
    subst hc
    have hdata : (String.join (c.toString :: rest)).toList =
        c :: (String.join rest).toList := by
      show (String.join (c.toString :: rest)).data = c :: (String.join rest).data
      rw [String.data_join, List.map_cons, List.flatten_cons, char_toString_data,
        String.data_join]
      rfl
    rw [hdata]
    simp only [acceptsFrom, runSyms]
    cases assocFind d.transitions (q, c.toString) with
    | none => rfl
    | some next => exact ih (fun x hx => h x (List.mem_cons_of_mem _ hx)) next

theorem accepts_join_run (d : DFA) (ws : List String) (h : ∀ s ∈ ws, s.length = 1) :
    d.accepts (String.join ws) =
      match runSyms d d.start_state ws with
      | none => false
      | some r => decide (r ∈ d.accept_states) := by
  unfold DFA.accepts
  exact acceptsFrom_join d ws h d.start_state

/-! Composition lemmas for the symbol runs. -/

theorem runSyms_append (d : DFA) :
    ∀ (u v : List String) (q : String),
      runSyms d q (u ++ v) = match runSyms d q u with
        | none => none
        | some r => runSyms d r v := by
  intro u
  induction u with
  | nil => intro v q; rfl
  | cons s u ih =>
    intro v q
    simp only [List.cons_append, runSyms]
    cases assocFind d.transitions (q, s) with
    | none => rfl
    | some next => exact ih v next

theorem runPair_append (d1 d2 : DFA) :
    ∀ (u v : List String) (p : Pair),
      runPair d1 d2 p (u ++ v) = match runPair d1 d2 p u with
        | none => none
        | some r => runPair d1 d2 r v := by
  intro u
  induction u with
  | nil => intro v p; rfl
  | cons a u ih =>
    intro v p
    simp only [List.cons_append, runPair]
    cases nextPair d1 d2 p a with
    | none => rfl
    | some y => exact ih v y

theorem runPair_some_split (d1 d2 : DFA) :
    ∀ (v : List String) (p r : Pair), runPair d1 d2 p v = some r →
      runSyms d1 p.1 v = some r.1 ∧ runSyms d2 p.2 v = some r.2 := by
  intro v
  induction v with
  | nil =>
    intro p r h
    simp only [runPair, Option.some.injEq] at h
    rw [← h]
    exact ⟨rfl, rfl⟩
  | cons a v ih =>
    intro p r h
    simp only [runPair] at h
    cases hnp : nextPair d1 d2 p a with
    | none => rw [hnp] at h; simp at h
    | some y =>
      rw [hnp] at h
      have hy := ih y r h
      unfold nextPair at hnp
      cases h1 : assocFind d1.transitions (p.1, a) with
      | none => rw [h1] at hnp; simp at hnp
      | some n1 =>
        cases h2 : assocFind d2.transitions (p.2, a) with
        | none => rw [h1, h2] at hnp; simp at hnp
        | some n2 =>
          rw [h1, h2] at hnp
          simp only [Option.some.injEq] at hnp
          constructor
          · show (match assocFind d1.transitions (p.1, a) with
              | none => none
              | some next => runSyms d1 next v) = some r.1
            rw [h1]
            rw [← hnp] at hy
            exact hy.1
          · show (match assocFind d2.transitions (p.2, a) with
              | none => none
              | some next => runSyms d2 next v) = some r.2
            rw [h2]
            rw [← hnp] at hy
            exact hy.2

/-! Counting lemmas for the product-state bound. -/

theorem nodup_prod_length_le (d1 d2 : DFA) (l : List Pair)
    (hnodup : l.Nodup) (hprod : ∀ p ∈ l, p.1 ∈ d1.states ∧ p.2 ∈ d2.states) :
    l.length ≤ PB d1 d2 := by
  classical
  have h1 : l.toFinset.card = l.length := List.toFinset_card_of_nodup hnodup
  have h2 : l.toFinset ⊆ d1.states.toFinset ×ˢ d2.states.toFinset := by
    intro p hp
    rw [List.mem_toFinset] at hp
    rw [Finset.mem_product]
    exact ⟨List.mem_toFinset.mpr (hprod p hp).1, List.mem_toFinset.mpr (hprod p hp).2⟩
  calc l.length = l.toFinset.card := h1.symm
    _ ≤ _ := Finset.card_le_card h2

theorem PB_le (d1 d2 : DFA) : PB d1 d2 ≤ d1.states.length * d2.states.length := by
  unfold PB
  rw [Finset.card_product]
  exact Nat.mul_le_mul (List.toFinset_card_le _) (List.toFinset_card_le _)

/-! Correctness of `reconstruct_word` under the parent-chain invariants. -/

theorem reconstructAux_eq (parent : ParentMap) (startp : Pair) (wd : Pair → List String)
    (visited : List Pair)
    (hwdstart : wd startp = [])
    (hpsome : ∀ p ∈ visited, p ≠ startp → (assocFind parent p).isSome)
    (hpmem : ∀ p pr a, assocFind parent p = some (pr, a) →
      pr ∈ visited ∧ wd p = wd pr ++ [a]) :
    ∀ (n : Nat) (p : Pair), p ∈ visited → (wd p).length ≤ n →
      ∀ path : List String,
        reconstructAux parent startp n p path = wd p ++ path.reverse := by
  intro n
  induction n with
  | zero =>
    intro p _ hlen path
    have h0 : wd p = [] := List.eq_nil_of_length_eq_zero (Nat.le_zero.mp hlen)
    simp [reconstructAux, h0]
  | succ n ih =>
    intro p hp hlen path
    by_cases hps : p = startp
    · subst hps
      simp [reconstructAux, hwdstart]
    · have hsome := hpsome p hp hps
      cases hfind : assocFind parent p with
      | none => rw [hfind] at hsome; simp at hsome
      | some pr_a =>
        obtain ⟨pr, a⟩ := pr_a
        obtain ⟨hpr, hwd⟩ := hpmem p pr a hfind
        have hlen' : (wd pr).length ≤ n := by
          rw [hwd] at hlen
          rw [List.length_append] at hlen
          simp only [List.length_singleton] at hlen
          omega
        simp only [reconstructAux, if_neg hps, hfind]
        rw [ih pr hpr hlen' (path ++ [a])]
        rw [hwd, List.reverse_append]
        simp

theorem reconstruct_word_eq (d1 d2 : DFA) (sigma : List String) (startp : Pair)
    (done queue visited : List Pair) (parent : ParentMap) (wd : Pair → List String)
    (inv : BfsInv d1 d2 sigma startp done queue visited parent wd)
    (p : Pair) (hp : p ∈ visited) :
    reconstruct_word parent startp p = String.join (wd p) := by
  unfold reconstruct_word
  rw [reconstructAux_eq parent startp wd visited inv.hwdstart inv.hpsome
    (fun p pr a h => ⟨(inv.hpmem p pr a h).2.2.1, (inv.hpmem p pr a h).2.2.2.2⟩)
    parent.length p hp (inv.hwdle p hp) []]
  simp

/-! The covering lemma: from any state of the invariant, every word over
`sigma` either runs to an already-dequeued (hence agreeing) pair, or passes
through a pair still in the queue after one of its prefixes, at a depth not
exceeding that prefix length. -/

theorem bfs_cover (d1 d2 : DFA) (sigma : List String) (startp : Pair)
    (done queue visited : List Pair) (parent : ParentMap) (wd : Pair → List String)
    (inv : BfsInv d1 d2 sigma startp done queue visited parent wd)
    (Htot1 : ∀ q ∈ d1.states, ∀ a ∈ sigma, (assocFind d1.transitions (q, a)).isSome)
    (Htot2 : ∀ q ∈ d2.states, ∀ a ∈ sigma, (assocFind d2.transitions (q, a)).isSome) :
    ∀ (v : List String), WordOver sigma v → ∀ (x : Pair), x ∈ done →
      ∀ (u : List String), runPair d1 d2 startp u = some x → (wd x).length ≤ u.length →
      (∃ r, runPair d1 d2 startp (u ++ v) = some r ∧ r ∈ done) ∨
      (∃ w1 w2 r, v = w1 ++ w2 ∧ runPair d1 d2 startp (u ++ w1) = some r ∧
        r ∈ queue ∧ (wd r).length ≤ u.length + w1.length) := by
  intro v
  induction v with
  | nil =>
    intro _ x hx u hu _
    left
    exact ⟨x, by rw [List.append_nil]; exact hu, hx⟩
  | cons a v ih =>
    intro hov x hx u hu hlen
    have ha : a ∈ sigma := hov a (List.mem_cons_self _ _)
    have hxv : x ∈ visited := by rw [inv.hsplit]; exact List.mem_append_left _ hx
    have hprod := inv.hprod x hxv
    obtain ⟨n1, hn1⟩ := Option.isSome_iff_exists.mp (Htot1 x.1 hprod.1 a ha)
    obtain ⟨n2, hn2⟩ := Option.isSome_iff_exists.mp (Htot2 x.2 hprod.2 a ha)
    have hnp : nextPair d1 d2 x a = some (n1, n2) := by
      unfold nextPair
      rw [hn1, hn2]
    obtain ⟨hyv, hylen⟩ := inv.hdclosed x hx a ha (n1, n2) hnp
    have hrun' : runPair d1 d2 startp (u ++ [a]) = some (n1, n2) := by
      rw [runPair_append, hu]
      simp [runPair, hnp]
    rw [inv.hsplit] at hyv
    rcases List.mem_append.mp hyv with hyd | hyq
    · have hlen2 : (wd (n1, n2)).length ≤ (u ++ [a]).length := by
        rw [List.length_append]
        simp only [List.length_singleton]
        omega
      rcases ih (fun b hb => hov b (List.mem_cons_of_mem _ hb)) (n1, n2) hyd
          (u ++ [a]) hrun' hlen2 with ⟨r, hr1, hr2⟩ | ⟨w1, w2, r, hv, hr1, hr2, hr3⟩
      · left
        refine ⟨r, ?_, hr2⟩
        rw [show u ++ a :: v = (u ++ [a]) ++ v from by simp]
        exact hr1
      · right
        refine ⟨a :: w1, w2, r, by rw [hv]; simp, ?_, hr2, ?_⟩
        · rw [show u ++ (a :: w1) = (u ++ [a]) ++ w1 from by simp]
          exact hr1
        · rw [List.length_append] at hr3
          simp only [List.length_singleton] at hr3
          simp only [List.length_cons]
          omega
    · right
      refine ⟨[a], v, (n1, n2), rfl, hrun', hyq, ?_⟩
      simp only [List.length_singleton]
      omega

/-- When the queue has emptied, every word over `sigma` runs to a dequeued,
hence acceptance-agreeing, pair. -/
theorem bfs_equiv_sound (d1 d2 : DFA) (sigma : List String) (startp : Pair)
    (done visited : List Pair) (parent : ParentMap) (wd : Pair → List String)
    (inv : BfsInv d1 d2 sigma startp done [] visited parent wd)
    (Htot1 : ∀ q ∈ d1.states, ∀ a ∈ sigma, (assocFind d1.transitions (q, a)).isSome)
    (Htot2 : ∀ q ∈ d2.states, ∀ a ∈ sigma, (assocFind d2.transitions (q, a)).isSome) :
    EquivSound d1 d2 sigma startp := by
  intro v hv
  have hsd : startp ∈ done := by
    have h := inv.hstart
    rw [inv.hsplit, List.append_nil] at h
    exact h
  have hu : runPair d1 d2 startp [] = some startp := rfl
  have hl : (wd startp).length ≤ ([] : List String).length := by
    rw [inv.hwdstart]
  rcases bfs_cover d1 d2 sigma startp done [] visited parent wd inv Htot1 Htot2
      v hv startp hsd [] hu hl with ⟨r, hr1, hr2⟩ | ⟨_, _, r, _, _, hr2, _⟩
  · refine ⟨r, ?_, inv.hdagree r hr2⟩
    rw [List.nil_append] at hr1
    exact hr1
  · simp at hr2

/-! Equations for one step of the expansion fold. -/

theorem expandPair_eq_of_none1 (d1 d2 : DFA) (q1 q2 a : String)
    (acc : List Pair × List Pair × ParentMap)
    (h1 : assocFind d1.transitions (q1, a) = none) :
    expandPair d1 d2 q1 q2 acc a = acc := by
  unfold expandPair
  rw [h1]

theorem expandPair_eq_of_none2 (d1 d2 : DFA) (q1 q2 a : String)
    (acc : List Pair × List Pair × ParentMap)
    (h2 : assocFind d2.transitions (q2, a) = none) :
    expandPair d1 d2 q1 q2 acc a = acc := by
  unfold expandPair
  rw [h2]
  cases assocFind d1.transitions (q1, a) <;> rfl

theorem expandPair_eq_of_some (d1 d2 : DFA) (q1 q2 a n1 n2 : String)
    (acc : List Pair × List Pair × ParentMap)
    (h1 : assocFind d1.transitions (q1, a) = some n1)
    (h2 : assocFind d2.transitions (q2, a) = some n2) :
    expandPair d1 d2 q1 q2 acc a =
      if (n1, n2) ∈ acc.2.1 then acc
      else (acc.1 ++ [(n1, n2)], acc.2.1 ++ [(n1, n2)],
        ((n1, n2), ((q1, q2), a)) :: acc.2.2) := by
  unfold expandPair
  rw [h1, h2]

/-! Preservation of the inner-fold invariant. -/

theorem midinv_mono (d1 d2 : DFA) (sigma : List String) (startp : Pair)
    (done : List Pair) (p : Pair) (P Q : String → Prop)
    (st : List Pair × List Pair × ParentMap) (wd : Pair → List String)
    (hq : ∀ a, Q a → P a) (m : MidInv d1 d2 sigma startp done p P st wd) :
    MidInv d1 d2 sigma startp done p Q st wd :=
  { m with mdclosedP := fun a ha y hy => m.mdclosedP a (hq a ha) y hy }

theorem midinv_unchanged (d1 d2 : DFA) (sigma : List String) (startp : Pair)
    (done : List Pair) (p : Pair) (P : String → Prop) (a : String)
    (st : List Pair × List Pair × ParentMap) (wd : Pair → List String)
    (m : MidInv d1 d2 sigma startp done p P st wd)
    (hcase : nextPair d1 d2 p a = none ∨
      (∃ y, nextPair d1 d2 p a = some y ∧ y ∈ st.2.1)) :
    MidInv d1 d2 sigma startp done p (fun b => P b ∨ b = a) st wd := by
  refine { m with mdclosedP := ?_ }
  intro b hb y hy
  rcases hb with hb | hb
  · exact m.mdclosedP b hb y hy
  · subst hb
    rcases hcase with hc | ⟨y', hc1, hc2⟩
    · rw [hc] at hy
      simp at hy
    · rw [hc1] at hy
      simp only [Option.some.injEq] at hy
      subst hy
      exact ⟨hc2, m.mvf y' hc2⟩

theorem extendWd_self (wd : Pair → List String) (y : Pair) (w : List String) :
    extendWd wd y w y = w := by
  simp [extendWd]

theorem extendWd_ne (wd : Pair → List String) (y : Pair) (w : List String)
    (x : Pair) (h : x ≠ y) : extendWd wd y w x = wd x := by
  simp [extendWd, h]

theorem midinv_step (d1 d2 : DFA) (sigma : List String) (startp : Pair)
    (done : List Pair) (q1 q2 : String) (P : String → Prop)
    (queue1 visited1 : List Pair) (parent1 : ParentMap) (wd : Pair → List String)
    (Hcl1 : ∀ e ∈ d1.transitions, e.2 ∈ d1.states)
    (Hcl2 : ∀ e ∈ d2.transitions, e.2 ∈ d2.states)
    (m : MidInv d1 d2 sigma startp done (q1, q2) P (queue1, visited1, parent1) wd)
    (a : String) (ha : a ∈ sigma) :
    ∃ wd2, MidInv d1 d2 sigma startp done (q1, q2) (fun b => P b ∨ b = a)
      (expandPair d1 d2 q1 q2 (queue1, visited1, parent1) a) wd2 := by
  cases h1 : assocFind d1.transitions (q1, a) with
  | none =>
    rw [expandPair_eq_of_none1 d1 d2 q1 q2 a _ h1]
    refine ⟨wd, midinv_unchanged _ _ _ _ _ _ _ _ _ _ m (Or.inl ?_)⟩
    simp [nextPair, h1]
  | some n1 =>
    cases h2 : assocFind d2.transitions (q2, a) with
    | none =>
      rw [expandPair_eq_of_none2 d1 d2 q1 q2 a _ h2]
      refine ⟨wd, midinv_unchanged _ _ _ _ _ _ _ _ _ _ m (Or.inl ?_)⟩
      simp [nextPair, h1, h2]
    | some n2 =>
      have hnp : nextPair d1 d2 (q1, q2) a = some (n1, n2) := by
        simp [nextPair, h1, h2]
      rw [expandPair_eq_of_some d1 d2 q1 q2 a n1 n2 _ h1 h2]
      by_cases hmem : (n1, n2) ∈ visited1
      · rw [if_pos hmem]
        exact ⟨wd, midinv_unchanged _ _ _ _ _ _ _ _ _ _ m (Or.inr ⟨(n1, n2), hnp, hmem⟩)⟩
      · rw [if_neg hmem]
        have msplit' : visited1 = (done ++ [(q1, q2)]) ++ queue1 := m.msplit
        have mnodup' : visited1.Nodup := m.mnodup
        have mprod' : ∀ x ∈ visited1, x.1 ∈ d1.states ∧ x.2 ∈ d2.states := m.mprod
        have mstart' : startp ∈ visited1 := m.mstart
        have mwdstart' : wd startp = [] := m.mwdstart
        have mrun' : ∀ x ∈ visited1, runPair d1 d2 startp (wd x) = some x := m.mrun
        have msig' : ∀ x ∈ visited1, WordOver sigma (wd x) := m.msig
        have mpsome' : ∀ x ∈ visited1, x ≠ startp → (assocFind parent1 x).isSome := m.mpsome
        have mpmem' : ∀ x pr b, assocFind parent1 x = some (pr, b) →
            x ∈ visited1 ∧ x ≠ startp ∧ pr ∈ visited1 ∧ b ∈ sigma ∧ wd x = wd pr ++ [b] :=
          m.mpmem
        have mplen' : visited1.length = parent1.length + 1 := m.mplen
        have mwdle' : ∀ x ∈ visited1, (wd x).length ≤ parent1.length := m.mwdle
        have mqpw' : List.Pairwise (fun x y => (wd x).length ≤ (wd y).length) queue1 :=
          m.mqpw
        have mfq' : ∀ q ∈ queue1, (wd (q1, q2)).length ≤ (wd q).length := m.mfq
        have mvf' : ∀ x ∈ visited1, (wd x).length ≤ (wd (q1, q2)).length + 1 := m.mvf
        have mdagree' : ∀ x ∈ done ++ [(q1, q2)], accAgree d1 d2 x := m.mdagree
        have mdclosedOld' : ∀ x ∈ done, ∀ b ∈ sigma, ∀ y, nextPair d1 d2 x b = some y →
            y ∈ visited1 ∧ (wd y).length ≤ (wd x).length + 1 := m.mdclosedOld
        have mdclosedP' : ∀ b, P b → ∀ y, nextPair d1 d2 (q1, q2) b = some y →
            y ∈ visited1 ∧ (wd y).length ≤ (wd (q1, q2)).length + 1 := m.mdclosedP
        have hpv : (q1, q2) ∈ visited1 := by
          rw [msplit']
          exact List.mem_append_left _ (List.mem_append_right _ (List.mem_singleton_self _))
        have hqsub : ∀ x ∈ queue1, x ∈ visited1 := by
          intro x hx
          rw [msplit']
          exact List.mem_append_right _ hx
        have hdsub : ∀ x ∈ done, x ∈ visited1 := by
          intro x hx
          rw [msplit']
          exact List.mem_append_left _ (List.mem_append_left _ hx)
        have hne : ∀ x ∈ visited1, x ≠ (n1, n2) := fun x hx hxy => hmem (hxy ▸ hx)
        have hpne : (q1, q2) ≠ (n1, n2) := hne _ hpv
        have hsne : startp ≠ (n1, n2) := hne _ mstart'
        refine ⟨extendWd wd (n1, n2) (wd (q1, q2) ++ [a]),
          { msplit := ?_, mnodup := ?_, mprod := ?_, mstart := ?_, mwdstart := ?_,
            mrun := ?_, msig := ?_, mpsome := ?_, mpmem := ?_, mplen := ?_, mwdle := ?_,
            mqpw := ?_, mfq := ?_, mvf := ?_, mdagree := ?_, mdclosedOld := ?_,
            mdclosedP := ?_ }⟩
        · show visited1 ++ [(n1, n2)] = (done ++ [(q1, q2)]) ++ (queue1 ++ [(n1, n2)])
          rw [msplit', List.append_assoc]
        · show (visited1 ++ [(n1, n2)]).Nodup
          rw [List.nodup_append]
          refine ⟨mnodup', List.nodup_singleton _, ?_⟩
          intro x hx hxy
          simp only [List.mem_singleton] at hxy
          exact hne x hx hxy
        · intro x hx
          rcases List.mem_append.mp hx with h | h
          · exact mprod' x h
          · simp only [List.mem_singleton] at h
            subst h
            exact ⟨Hcl1 _ (assocFind_mem _ _ _ h1), Hcl2 _ (assocFind_mem _ _ _ h2)⟩
        · exact List.mem_append_left _ mstart'
        · show extendWd wd (n1, n2) (wd (q1, q2) ++ [a]) startp = []
          rw [extendWd_ne _ _ _ _ hsne]
          exact mwdstart'
        · intro x hx
          rcases List.mem_append.mp hx with h | h
          · show runPair d1 d2 startp (extendWd wd (n1, n2) (wd (q1, q2) ++ [a]) x) = some x
            rw [extendWd_ne _ _ _ _ (hne x h)]
            exact mrun' x h
          · simp only [List.mem_singleton] at h
            subst h
            show runPair d1 d2 startp
              (extendWd wd (n1, n2) (wd (q1, q2) ++ [a]) (n1, n2)) = some (n1, n2)
            rw [extendWd_self, runPair_append, mrun' _ hpv]
            simp [runPair, hnp]
        · intro x hx
          rcases List.mem_append.mp hx with h | h
          · show WordOver sigma (extendWd wd (n1, n2) (wd (q1, q2) ++ [a]) x)
            rw [extendWd_ne _ _ _ _ (hne x h)]
            exact msig' x h
          · simp only [List.mem_singleton] at h
            subst h
            show WordOver sigma (extendWd wd (n1, n2) (wd (q1, q2) ++ [a]) (n1, n2))
            rw [extendWd_self]
            intro b hb
            rcases List.mem_append.mp hb with hb2 | hb2
            · exact msig' _ hpv b hb2
            · simp only [List.mem_singleton] at hb2
              subst hb2
              exact ha
        · intro x hx hxs
          show (assocFind (((n1, n2), ((q1, q2), a)) :: parent1) x).isSome
          by_cases hxy : (n1, n2) = x
          · simp [assocFind, hxy]
          · have hxv : x ∈ visited1 := by
              rcases List.mem_append.mp hx with h | h
              · exact h
              · simp only [List.mem_singleton] at h
                exact absurd h.symm hxy
            simp only [assocFind, if_neg hxy]
            exact mpsome' x hxv hxs
        · intro x pr b hfind
          by_cases hxy : (n1, n2) = x
          · subst hxy
            rw [show assocFind (((n1, n2), ((q1, q2), a)) :: parent1) (n1, n2) =
                some ((q1, q2), a) from by simp [assocFind]] at hfind
            simp only [Option.some.injEq, Prod.mk.injEq] at hfind
            obtain ⟨hpr, hb⟩ := hfind
            subst hpr
            subst hb
            refine ⟨List.mem_append_right _ (List.mem_singleton_self _),
              fun hcon => hsne hcon.symm, List.mem_append_left _ hpv, ha, ?_⟩
            rw [extendWd_self, extendWd_ne _ _ _ _ hpne]
          · rw [show assocFind (((n1, n2), ((q1, q2), a)) :: parent1) x =
                assocFind parent1 x from by simp [assocFind, hxy]] at hfind
            obtain ⟨hm1, hm2, hm3, hm4, hm5⟩ := mpmem' x pr b hfind
            refine ⟨List.mem_append_left _ hm1, hm2, List.mem_append_left _ hm3, hm4, ?_⟩
            rw [extendWd_ne _ _ _ _ (hne x hm1), extendWd_ne _ _ _ _ (hne pr hm3)]
            exact hm5
        · show (visited1 ++ [(n1, n2)]).length =
            ((((n1, n2), ((q1, q2), a)) :: parent1).length) + 1
          rw [List.length_append, List.length_cons, mplen']
          simp
        · intro x hx
          show (extendWd wd (n1, n2) (wd (q1, q2) ++ [a]) x).length ≤
            (((n1, n2), ((q1, q2), a)) :: parent1).length
          rw [List.length_cons]
          rcases List.mem_append.mp hx with h | h
          · rw [extendWd_ne _ _ _ _ (hne x h)]
            exact Nat.le_succ_of_le (mwdle' x h)
          · simp only [List.mem_singleton] at h
            subst h
            rw [extendWd_self, List.length_append]
            simp only [List.length_singleton]
            have hw := mwdle' _ hpv
            omega
        · show List.Pairwise _ (queue1 ++ [(n1, n2)])
          rw [List.pairwise_append]
          refine ⟨?_, List.pairwise_singleton _ _, ?_⟩
          · refine mqpw'.imp_of_mem ?_
            intro x y hx hy hr
            rw [extendWd_ne _ _ _ _ (hne x (hqsub x hx)),
              extendWd_ne _ _ _ _ (hne y (hqsub y hy))]
            exact hr
          · intro x hx b hb
            simp only [List.mem_singleton] at hb
            subst hb
            rw [extendWd_ne _ _ _ _ (hne x (hqsub x hx)), extendWd_self,
              List.length_append]
            simp only [List.length_singleton]
            have hv := mvf' x (hqsub x hx)
            omega
        · intro q hq
          rw [extendWd_ne _ _ _ _ hpne]
          rcases List.mem_append.mp hq with h | h
          · rw [extendWd_ne _ _ _ _ (hne q (hqsub q h))]
            exact mfq' q h
          · simp only [List.mem_singleton] at h
            subst h
            rw [extendWd_self, List.length_append]
            simp
        · intro x hx
          rw [extendWd_ne _ _ _ _ hpne]
          rcases List.mem_append.mp hx with h | h
          · rw [extendWd_ne _ _ _ _ (hne x h)]
            exact mvf' x h
          · simp only [List.mem_singleton] at h
            subst h
            rw [extendWd_self, List.length_append]
            simp
        · exact mdagree'
        · intro x hx b hb y hy
          obtain ⟨hy1, hy2⟩ := mdclosedOld' x hx b hb y hy
          refine ⟨List.mem_append_left _ hy1, ?_⟩
          rw [extendWd_ne _ _ _ _ (hne y hy1), extendWd_ne _ _ _ _ (hne x (hdsub x hx))]
          exact hy2
        · intro b hb y hy
          rcases hb with hb | hb
          · obtain ⟨hy1, hy2⟩ := mdclosedP' b hb y hy
            refine ⟨List.mem_append_left _ hy1, ?_⟩
            rw [extendWd_ne _ _ _ _ (hne y hy1), extendWd_ne _ _ _ _ hpne]
            exact hy2
          · subst hb
            rw [hnp] at hy
            simp only [Option.some.injEq] at hy
            subst hy
            refine ⟨List.mem_append_right _ (List.mem_singleton_self _), ?_⟩
            rw [extendWd_self, extendWd_ne _ _ _ _ hpne, List.length_append]
            simp

theorem midinv_fold (d1 d2 : DFA) (sigma : List String) (startp : Pair)
    (done : List Pair) (q1 q2 : String)
    (Hcl1 : ∀ e ∈ d1.transitions, e.2 ∈ d1.states)
    (Hcl2 : ∀ e ∈ d2.transitions, e.2 ∈ d2.states) :
    ∀ (syms : List String), (∀ b ∈ syms, b ∈ sigma) →
      ∀ (P : String → Prop) (queue1 visited1 : List Pair) (parent1 : ParentMap)
        (wd : Pair → List String),
      MidInv d1 d2 sigma startp done (q1, q2) P (queue1, visited1, parent1) wd →
      ∃ wd2, MidInv d1 d2 sigma startp done (q1, q2) (fun b => P b ∨ b ∈ syms)
        (syms.foldl (expandPair d1 d2 q1 q2) (queue1, visited1, parent1)) wd2 := by
  intro syms
  induction syms with
  | nil =>
    intro _ P queue1 visited1 parent1 wd m
    refine ⟨wd, midinv_mono _ _ _ _ _ _ _ _ _ _ (fun b hb => ?_) m⟩
    rcases hb with hb | hb
    · exact hb
    · simp at hb
  | cons a syms ih =>
    intro hsub P queue1 visited1 parent1 wd m
    have ha : a ∈ sigma := hsub a (List.mem_cons_self _ _)
    obtain ⟨wd1, m1⟩ := midinv_step d1 d2 sigma startp done q1 q2 P
      queue1 visited1 parent1 wd Hcl1 Hcl2 m a ha
    rw [List.foldl_cons]
    obtain ⟨nq, nv, np, heq⟩ : ∃ nq nv np,
        expandPair d1 d2 q1 q2 (queue1, visited1, parent1) a = (nq, nv, np) :=
      ⟨_, _, _, rfl⟩
    rw [heq] at m1 ⊢
    obtain ⟨wd2, m2⟩ := ih (fun b hb => hsub b (List.mem_cons_of_mem _ hb))
      (fun b => P b ∨ b = a) nq nv np wd1 m1
    refine ⟨wd2, midinv_mono _ _ _ _ _ _ _ _ _ _ (fun b hb => ?_) m2⟩
    rcases hb with hb | hb
    · left
      left
      exact hb
    · rcases List.mem_cons.mp hb with h | h
      · left
        right
        exact h
      · right
        exact h

theorem inv_to_mid (d1 d2 : DFA) (sigma : List String) (startp : Pair)
    (done rest visited : List Pair) (parent : ParentMap) (wd : Pair → List String)
    (q1 q2 : String)
    (inv : BfsInv d1 d2 sigma startp done ((q1, q2) :: rest) visited parent wd)
    (hagree : accAgree d1 d2 (q1, q2)) :
    MidInv d1 d2 sigma startp done (q1, q2) (fun _ => False) (rest, visited, parent) wd := by
  refine ⟨?_, inv.hnodup, inv.hprod, inv.hstart, inv.hwdstart, inv.hrun, inv.hsig,
    inv.hpsome, inv.hpmem, inv.hplen, inv.hwdle, ?_, ?_, ?_, ?_, inv.hdclosed, ?_⟩
  · show visited = (done ++ [(q1, q2)]) ++ rest
    rw [inv.hsplit, List.append_assoc]
    rfl
  · exact (List.pairwise_cons.mp inv.hqpw).2
  · exact (List.pairwise_cons.mp inv.hqpw).1
  · intro x hx
    exact inv.hwin x hx (q1, q2) (List.mem_cons_self _ _)
  · intro x hx
    rcases List.mem_append.mp hx with h | h
    · exact inv.hdagree x h
    · simp only [List.mem_singleton] at h
      subst h
      exact hagree
  · intro b hb
    exact absurd hb (by simp)

theorem mid_to_inv (d1 d2 : DFA) (sigma : List String) (startp : Pair)
    (done : List Pair) (q1 q2 : String)
    (queue2 visited2 : List Pair) (parent2 : ParentMap) (wd : Pair → List String)
    (m : MidInv d1 d2 sigma startp done (q1, q2) (fun b => b ∈ sigma)
      (queue2, visited2, parent2) wd) :
    BfsInv d1 d2 sigma startp (done ++ [(q1, q2)]) queue2 visited2 parent2 wd := by
  refine ⟨m.msplit, m.mnodup, m.mprod, m.mstart, m.mwdstart, m.mrun, m.msig, m.mpsome,
    m.mpmem, m.mplen, m.mwdle, m.mqpw, ?_, m.mdagree, ?_⟩
  · intro x hx q hq
    have h1 : (wd x).length ≤ (wd (q1, q2)).length + 1 := m.mvf x hx
    have h2 : (wd (q1, q2)).length ≤ (wd q).length := m.mfq q hq
    omega
  · intro x hx b hb y hy
    rcases List.mem_append.mp hx with h | h
    · exact m.mdclosedOld x h b hb y hy
    · simp only [List.mem_singleton] at h
      subst h
      exact m.mdclosedP b hb y hy

theorem bfs_cover_top (d1 d2 : DFA) (sigma : List String) (startp : Pair)
    (done queue visited : List Pair) (parent : ParentMap) (wd : Pair → List String)
    (inv : BfsInv d1 d2 sigma startp done queue visited parent wd)
    (Htot1 : ∀ q ∈ d1.states, ∀ a ∈ sigma, (assocFind d1.transitions (q, a)).isSome)
    (Htot2 : ∀ q ∈ d2.states, ∀ a ∈ sigma, (assocFind d2.transitions (q, a)).isSome)
    (v : List String) (hv : WordOver sigma v) :
    (∃ r, runPair d1 d2 startp v = some r ∧ r ∈ done) ∨
    (∃ w1 w2 r, v = w1 ++ w2 ∧ runPair d1 d2 startp w1 = some r ∧ r ∈ queue ∧
      (wd r).length ≤ w1.length) := by
  have hs := inv.hstart
  rw [inv.hsplit] at hs
  rcases List.mem_append.mp hs with hd | hq
  · have hc := bfs_cover d1 d2 sigma startp done queue visited parent wd inv Htot1 Htot2
      v hv startp hd [] rfl (by rw [inv.hwdstart])
    rcases hc with ⟨r, hr1, hr2⟩ | ⟨w1, w2, r, hveq, hr1, hr2, hr3⟩
    · left
      rw [List.nil_append] at hr1
      exact ⟨r, hr1, hr2⟩
    · right
      rw [List.nil_append] at hr1
      refine ⟨w1, w2, r, hveq, hr1, hr2, ?_⟩
      simpa using hr3
  · right
    refine ⟨[], v, startp, rfl, rfl, hq, ?_⟩
    rw [inv.hwdstart]

theorem bfs_master (d1 d2 : DFA) (sigma : List String) (startp : Pair)
    (Htot1 : ∀ q ∈ d1.states, ∀ a ∈ sigma, (assocFind d1.transitions (q, a)).isSome)
    (Htot2 : ∀ q ∈ d2.states, ∀ a ∈ sigma, (assocFind d2.transitions (q, a)).isSome)
    (Hcl1 : ∀ e ∈ d1.transitions, e.2 ∈ d1.states)
    (Hcl2 : ∀ e ∈ d2.transitions, e.2 ∈ d2.states) :
    ∀ (fuel : Nat) (done queue visited : List Pair) (parent : ParentMap)
      (wd : Pair → List String),
      BfsInv d1 d2 sigma startp done queue visited parent wd →
      PB d1 d2 + queue.length < fuel + visited.length →
      ∃ res, bfsLoop d1 d2 sigma startp fuel queue visited parent = some res ∧
        GoodRes d1 d2 sigma startp res := by
  intro fuel
  induction fuel with
  | zero =>
    intro done queue visited parent wd inv hm
    have hvle := nodup_prod_length_le d1 d2 visited inv.hnodup inv.hprod
    have hq : queue.length ≤ visited.length := by
      rw [inv.hsplit]
      simp
    exact absurd hm (by omega)
  | succ fuel ih =>
    intro done queue visited parent wd inv hm
    cases queue with
    | nil =>
      refine ⟨(true, none), rfl, ?_⟩
      left
      exact ⟨rfl, bfs_equiv_sound d1 d2 sigma startp done visited parent wd inv Htot1 Htot2⟩
    | cons hdp rest =>
      obtain ⟨q1, q2⟩ := hdp
      by_cases hag : decide (q1 ∈ d1.accept_states) ≠ decide (q2 ∈ d2.accept_states)
      · have hloop : bfsLoop d1 d2 sigma startp (fuel + 1) ((q1, q2) :: rest)
            visited parent =
            some (false, some (reconstruct_word parent startp (q1, q2))) := by
          simp only [bfsLoop]
          rw [if_pos hag]
        refine ⟨_, hloop, ?_⟩
        right
        refine ⟨_, rfl, ?_⟩
        have hpv : (q1, q2) ∈ visited := by
          rw [inv.hsplit]
          exact List.mem_append_right _ (List.mem_cons_self _ _)
        refine ⟨wd (q1, q2), (q1, q2),
          reconstruct_word_eq d1 d2 sigma startp done _ visited parent wd inv _ hpv,
          inv.hsig _ hpv, inv.hrun _ hpv, ?_, ?_⟩
        · intro hc
          exact hag (decide_eq_decide.mpr hc)
        · intro v hv hlen
          rcases bfs_cover_top d1 d2 sigma startp done _ visited parent wd inv Htot1 Htot2
              v hv with ⟨r, hr1, hr2⟩ | ⟨w1, w2, r, hveq, hr1, hr2, hr3⟩
          · exact ⟨r, hr1, inv.hdagree r hr2⟩
          · exfalso
            have hhead : (wd (q1, q2)).length ≤ (wd r).length := by
              rcases List.mem_cons.mp hr2 with h | h
              · rw [h]
              · exact (List.pairwise_cons.mp inv.hqpw).1 r h
            have hw1 : w1.length ≤ v.length := by
              rw [hveq, List.length_append]
              omega
            omega
      · push_neg at hag
        have hagree : accAgree d1 d2 (q1, q2) := decide_eq_decide.mp hag
        have hmid := inv_to_mid d1 d2 sigma startp done rest visited parent wd q1 q2
          inv hagree
        obtain ⟨wd2, m2⟩ := midinv_fold d1 d2 sigma startp done q1 q2 Hcl1 Hcl2 sigma
          (fun b hb => hb) (fun _ => False) rest visited parent wd hmid
        have m3 := midinv_mono d1 d2 sigma startp done (q1, q2) _ (fun b => b ∈ sigma)
          _ wd2 (fun b hb => Or.inr hb) m2
        obtain ⟨nq, nv, np, heq⟩ : ∃ nq nv np,
            sigma.foldl (expandPair d1 d2 q1 q2) (rest, visited, parent) = (nq, nv, np) :=
          ⟨_, _, _, rfl⟩
        rw [heq] at m3
        have inv2 := mid_to_inv d1 d2 sigma startp done q1 q2 nq nv np wd2 m3
        have hv1 : visited.length = done.length + (rest.length + 1) := by
          rw [inv.hsplit]
          simp [List.length_append]
        have hv2 : nv.length = (done.length + 1) + nq.length := by
          rw [inv2.hsplit]
          simp [List.length_append]
          omega
        have hmeasure : PB d1 d2 + nq.length < fuel + nv.length := by
          simp only [List.length_cons] at hm
          omega
        obtain ⟨res, hres, hgood⟩ := ih (done ++ [(q1, q2)]) nq nv np wd2 inv2 hmeasure
        have hloop : bfsLoop d1 d2 sigma startp (fuel + 1) ((q1, q2) :: rest)
            visited parent = bfsLoop d1 d2 sigma startp fuel nq nv np := by
          simp only [bfsLoop]
          rw [if_neg (fun h => h hag)]
          rw [heq]
        exact ⟨res, by rw [hloop]; exact hres, hgood⟩

/-! Gluing the master lemma to `are_equivalent` for valid inputs. -/

theorem init_inv (d1 d2 : DFA) (sigma : List String) (startp : Pair)
    (hs1 : startp.1 ∈ d1.states) (hs2 : startp.2 ∈ d2.states) :
    BfsInv d1 d2 sigma startp [] [startp] [startp] [] (fun _ => []) := by
  refine ⟨rfl, List.nodup_singleton _, ?_, List.mem_singleton_self _, rfl, ?_, ?_, ?_, ?_,
    rfl, ?_, List.pairwise_singleton _ _, ?_, ?_, ?_⟩
  · intro p hp
    simp only [List.mem_singleton] at hp
    subst hp
    exact ⟨hs1, hs2⟩
  · intro p hp
    simp only [List.mem_singleton] at hp
    subst hp
    rfl
  · intro p _ a ha
    simp at ha
  · intro p hp hne
    simp only [List.mem_singleton] at hp
    exact absurd hp hne
  · intro p pr a hf
    simp [assocFind] at hf
  · intro p _
    exact Nat.zero_le _
  · intro p _ q _
    exact Nat.zero_le _
  · intro p hp
    simp at hp
  · intro p hp
    simp at hp

theorem preprocess_fst (A B : DFA) : (preprocess A B).1 =
    ({ A with alphabet := listUnion A.alphabet B.alphabet }).complete_with_sink := rfl

theorem preprocess_snd (A B : DFA) : (preprocess A B).2 =
    ({ B with alphabet := listUnion A.alphabet B.alphabet }).complete_with_sink := rfl

theorem preprocess_total1 (A B : DFA) :
    ∀ q ∈ (preprocess A B).1.states, ∀ a ∈ listUnion A.alphabet B.alphabet,
      (assocFind (preprocess A B).1.transitions (q, a)).isSome := by
  rw [preprocess_fst]
  intro q hq a ha
  exact complete_total _ q a hq ha

theorem preprocess_total2 (A B : DFA) :
    ∀ q ∈ (preprocess A B).2.states, ∀ a ∈ listUnion A.alphabet B.alphabet,
      (assocFind (preprocess A B).2.transitions (q, a)).isSome := by
  rw [preprocess_snd]
  intro q hq a ha
  exact complete_total _ q a hq ha

theorem preprocess_cl1 (A B : DFA) (hA : Valid A) :
    ∀ e ∈ (preprocess A B).1.transitions, e.2 ∈ (preprocess A B).1.states := by
  rw [preprocess_fst]
  intro e he
  rcases complete_trans_mem _ e he with h | ⟨h1, h2⟩
  · exact complete_states_superset _ _ ((hA.2.2 e h).2.2)
  · rw [h1]
    exact h2

theorem preprocess_cl2 (A B : DFA) (hB : Valid B) :
    ∀ e ∈ (preprocess A B).2.transitions, e.2 ∈ (preprocess A B).2.states := by
  rw [preprocess_snd]
  intro e he
  rcases complete_trans_mem _ e he with h | ⟨h1, h2⟩
  · exact complete_states_superset _ _ ((hB.2.2 e h).2.2)
  · rw [h1]
    exact h2

theorem preprocess_start_mem1 (A B : DFA) (hA : Valid A) :
    (preprocess A B).1.start_state ∈ (preprocess A B).1.states := by
  rw [preprocess_fst, complete_start]
  exact complete_states_superset _ _ hA.1

theorem preprocess_start_mem2 (A B : DFA) (hB : Valid B) :
    (preprocess A B).2.start_state ∈ (preprocess A B).2.states := by
  rw [preprocess_snd, complete_start]
  exact complete_states_superset _ _ hB.1

theorem are_equivalent_eq (A B : DFA) :
    are_equivalent A B = bfsLoop (preprocess A B).1 (preprocess A B).2
      (listUnion A.alphabet B.alphabet)
      ((preprocess A B).1.start_state, (preprocess A B).2.start_state)
      (bfsFuel (preprocess A B).1 (preprocess A B).2)
      [((preprocess A B).1.start_state, (preprocess A B).2.start_state)]
      [((preprocess A B).1.start_state, (preprocess A B).2.start_state)] [] := rfl

theorem are_equivalent_good (A B : DFA) (hA : Valid A) (hB : Valid B) :
    ∃ res, are_equivalent A B = some res ∧
      GoodRes (preprocess A B).1 (preprocess A B).2 (listUnion A.alphabet B.alphabet)
        ((preprocess A B).1.start_state, (preprocess A B).2.start_state) res := by
  rw [are_equivalent_eq]
  apply bfs_master (preprocess A B).1 (preprocess A B).2 (listUnion A.alphabet B.alphabet)
    ((preprocess A B).1.start_state, (preprocess A B).2.start_state)
    (preprocess_total1 A B) (preprocess_total2 A B)
    (preprocess_cl1 A B hA) (preprocess_cl2 A B hB)
    (bfsFuel (preprocess A B).1 (preprocess A B).2) [] _ _ [] (fun _ => [])
    (init_inv _ _ _ _ (preprocess_start_mem1 A B hA) (preprocess_start_mem2 A B hB))
  have hle := PB_le (preprocess A B).1 (preprocess A B).2
  unfold bfsFuel
  simp only [List.length_singleton]
  omega

theorem bfsReaches_inv (d1 d2 : DFA) (sigma : List String) (startp : Pair)
    (Hcl1 : ∀ e ∈ d1.transitions, e.2 ∈ d1.states)
    (Hcl2 : ∀ e ∈ d2.transitions, e.2 ∈ d2.states)
    (hs1 : startp.1 ∈ d1.states) (hs2 : startp.2 ∈ d2.states) :
    ∀ st, BfsReaches d1 d2 sigma startp st →
      ∃ done wd, BfsInv d1 d2 sigma startp done st.1 st.2.1 st.2.2 wd := by
  intro st h
  induction h with
  | init => exact ⟨[], fun _ => [], init_inv d1 d2 sigma startp hs1 hs2⟩
  | step h hag ihh =>
    rename_i q1 q2 rest visited parent
    obtain ⟨done, wd, inv⟩ := ihh
    have hagree : accAgree d1 d2 (q1, q2) := decide_eq_decide.mp hag
    have hmid := inv_to_mid d1 d2 sigma startp done rest visited parent wd q1 q2 inv hagree
    obtain ⟨wd2, m2⟩ := midinv_fold d1 d2 sigma startp done q1 q2 Hcl1 Hcl2 sigma
      (fun b hb => hb) (fun _ => False) rest visited parent wd hmid
    have m3 := midinv_mono d1 d2 sigma startp done (q1, q2) _ (fun b => b ∈ sigma)
      _ wd2 (fun b hb => Or.inr hb) m2
    obtain ⟨nq, nv, np, heq⟩ : ∃ nq nv np,
        sigma.foldl (expandPair d1 d2 q1 q2) (rest, visited, parent) = (nq, nv, np) :=
      ⟨_, _, _, rfl⟩
    rw [heq] at m3 ⊢
    exact ⟨done ++ [(q1, q2)], wd2, mid_to_inv d1 d2 sigma startp done q1 q2 nq nv np wd2 m3⟩

theorem acceptsFrom_cons_none (d : DFA) (q : String) (ch : Char) (rest : List Char)
    (h : assocFind d.transitions (q, ch.toString) = none) :
    acceptsFrom d q (ch :: rest) = false := by
  simp [acceptsFrom, h]

theorem accepts_eq_of_accAgree (d1 d2 : DFA) (ws : List String) (r : Pair)
    (h1 : ∀ s ∈ ws, s.length = 1)
    (hr : runPair d1 d2 (d1.start_state, d2.start_state) ws = some r)
    (hag : accAgree d1 d2 r) :
    d1.accepts (String.join ws) = d2.accepts (String.join ws) := by
  obtain ⟨hr1, hr2⟩ := runPair_some_split d1 d2 ws _ r hr
  have hr1' : runSyms d1 d1.start_state ws = some r.1 := hr1
  have hr2' : runSyms d2 d2.start_state ws = some r.2 := hr2
  rw [accepts_join_run d1 ws h1, accepts_join_run d2 ws h1, hr1', hr2']
  show decide (r.1 ∈ d1.accept_states) = decide (r.2 ∈ d2.accept_states)
  exact decide_eq_decide.mpr hag

theorem accepts_ne_of_not_accAgree (d1 d2 : DFA) (ws : List String) (r : Pair)
    (h1 : ∀ s ∈ ws, s.length = 1)
    (hr : runPair d1 d2 (d1.start_state, d2.start_state) ws = some r)
    (hnag : ¬ accAgree d1 d2 r) :
    d1.accepts (String.join ws) ≠ d2.accepts (String.join ws) := by
  obtain ⟨hr1, hr2⟩ := runPair_some_split d1 d2 ws _ r hr
  have hr1' : runSyms d1 d1.start_state ws = some r.1 := hr1
  have hr2' : runSyms d2 d2.start_state ws = some r.2 := hr2
  rw [accepts_join_run d1 ws h1, accepts_join_run d2 ws h1, hr1', hr2']
  show decide (r.1 ∈ d1.accept_states) ≠ decide (r.2 ∈ d2.accept_states)
  exact fun h => hnag (decide_eq_decide.mp h)

/-- C1 amended: for valid automatons all of whose union-alphabet symbols are
single characters, `are_equivalent` returns EQUIVALENT if and only if the two
automatons, as they stand after the call (alphabet-unioned and completed),
accept exactly the same words over the union alphabet.  Without the
single-character proviso the claim fails, see the counterexample. -/
theorem claim1_amended (A B : DFA) (hA : Valid A) (hB : Valid B)
    (h1 : ∀ s ∈ listUnion A.alphabet B.alphabet, s.length = 1) :
    are_equivalent A B = some (true, none) ↔
      ∀ ws : List String, WordOver (listUnion A.alphabet B.alphabet) ws →
        (preprocess A B).1.accepts (String.join ws) =
          (preprocess A B).2.accepts (String.join ws) := by
  obtain ⟨res, hres, hgood⟩ := are_equivalent_good A B hA hB
  constructor
  · intro heq ws hws
    have hres2 : res = (true, none) := Option.some.inj (hres.symm.trans heq)
    rcases hgood with ⟨_, hsound⟩ | ⟨w, hw, _⟩
    · obtain ⟨r, hrun, hag⟩ := hsound ws hws
      exact accepts_eq_of_accAgree _ _ ws r (fun s hs => h1 s (hws s hs)) hrun hag
    · rw [hres2] at hw
      simp at hw
  · intro hacc
    rcases hgood with ⟨hres2, _⟩ | ⟨w, hres2, hwit⟩
    · rw [hres2] at hres
      exact hres
    · exfalso
      obtain ⟨ws, p, _, hover, hrun, hnag, _⟩ := hwit
      exact accepts_ne_of_not_accAgree _ _ ws p (fun s hs => h1 s (hover s hs)) hrun hnag
        (hacc ws hover)

/-- C2 amended: for valid automatons all of whose union-alphabet symbols are
single characters, every NOT-EQUIVALENT witness is genuinely distinguishing
on the post-call automatons.  Without the single-character proviso the claim
fails, see the counterexample. -/
theorem claim2_amended (A B : DFA) (hA : Valid A) (hB : Valid B)
    (h1 : ∀ s ∈ listUnion A.alphabet B.alphabet, s.length = 1)
    (w : String) (hw : are_equivalent A B = some (false, some w)) :
    (preprocess A B).1.accepts w ≠ (preprocess A B).2.accepts w := by
  obtain ⟨res, hres, hgood⟩ := are_equivalent_good A B hA hB
  have hres2 : res = (false, some w) := Option.some.inj (hres.symm.trans hw)
  rcases hgood with ⟨hcontra, _⟩ | ⟨w', hw', hwit⟩
  · rw [hres2] at hcontra
    simp at hcontra
  · rw [hres2] at hw'
    simp only [Prod.mk.injEq, Option.some.injEq] at hw'
    obtain ⟨ws, p, hj, hover, hrun, hnag, _⟩ := hwit
    rw [← hw'.2] at hj
    rw [hj]
    exact accepts_ne_of_not_accAgree _ _ ws p (fun s hs => h1 s (hover s hs)) hrun hnag

/-- C3 amended: for valid automatons all of whose union-alphabet symbols are
single characters, the NOT-EQUIVALENT witness has minimum length among all
distinguishing words over the union alphabet.  Without the single-character
proviso the claim fails, see the counterexample. -/
theorem claim3_amended (A B : DFA) (hA : Valid A) (hB : Valid B)
    (h1 : ∀ s ∈ listUnion A.alphabet B.alphabet, s.length = 1)
    (w : String) (hw : are_equivalent A B = some (false, some w)) :
    ∀ ws : List String, WordOver (listUnion A.alphabet B.alphabet) ws →
      (preprocess A B).1.accepts (String.join ws) ≠
        (preprocess A B).2.accepts (String.join ws) →
      w.length ≤ (String.join ws).length := by
  obtain ⟨res, hres, hgood⟩ := are_equivalent_good A B hA hB
  have hres2 : res = (false, some w) := Option.some.inj (hres.symm.trans hw)
  rcases hgood with ⟨hcontra, _⟩ | ⟨w', hw', hwit⟩
  · rw [hres2] at hcontra
    simp at hcontra
  · rw [hres2] at hw'
    simp only [Prod.mk.injEq, Option.some.injEq] at hw'
    obtain ⟨wsW, p, hj, hoverW, _, _, hmin⟩ := hwit
    rw [← hw'.2] at hj
    intro ws hover hne
    by_contra hlt
    push_neg at hlt
    have hlen1 : (String.join ws).length = ws.length :=
      join_length_single ws (fun s hs => h1 s (hover s hs))
    have hlen2 : w.length = wsW.length := by
      rw [hj]
      exact join_length_single wsW (fun s hs => h1 s (hoverW s hs))
    have hshort : ws.length < wsW.length := by omega
    obtain ⟨r, hrun, hag⟩ := hmin ws hover hshort
    exact hne (accepts_eq_of_accAgree _ _ ws r (fun s hs => h1 s (hover s hs)) hrun hag)

/-- C6: after the union-alphabet assignment and completion, both automatons
are complete; every lookup over the completed states and the union alphabet
succeeds; and in every reachable BFS state all visited pairs lie in the
state product, so both successor lookups succeed and the skip branch of the
loop is unreachable. -/
theorem claim6_totality (A B : DFA) (hA : Valid A) (hB : Valid B) :
    (preprocess A B).1.is_complete = true ∧
    (preprocess A B).2.is_complete = true ∧
    ∀ st, BfsReaches (preprocess A B).1 (preprocess A B).2
        (listUnion A.alphabet B.alphabet)
        ((preprocess A B).1.start_state, (preprocess A B).2.start_state) st →
      ∀ p ∈ st.2.1, ∀ a ∈ listUnion A.alphabet B.alphabet,
        (assocFind (preprocess A B).1.transitions (p.1, a)).isSome ∧
        (assocFind (preprocess A B).2.transitions (p.2, a)).isSome := by
  refine ⟨by rw [preprocess_fst]; exact complete_is_complete _,
    by rw [preprocess_snd]; exact complete_is_complete _, ?_⟩
  intro st hst p hp a ha
  obtain ⟨done, wd, inv⟩ := bfsReaches_inv _ _ _ _ (preprocess_cl1 A B hA)
    (preprocess_cl2 A B hB) (preprocess_start_mem1 A B hA) (preprocess_start_mem2 A B hB)
    st hst
  have hprod := inv.hprod p hp
  exact ⟨preprocess_total1 A B p.1 hprod.1 a ha, preprocess_total2 A B p.2 hprod.2 a ha⟩

/-- C9: for valid automatons `are_equivalent` terminates, and in every
reachable state of its BFS the visited set (the pairs ever enqueued) has no
duplicates and its size is bounded by the product of the two completed state
counts. -/
theorem claim9_termination (A B : DFA) (hA : Valid A) (hB : Valid B) :
    (are_equivalent A B).isSome ∧
    ∀ st, BfsReaches (preprocess A B).1 (preprocess A B).2
        (listUnion A.alphabet B.alphabet)
        ((preprocess A B).1.start_state, (preprocess A B).2.start_state) st →
      st.2.1.Nodup ∧
      st.2.1.length ≤
        (preprocess A B).1.states.length * (preprocess A B).2.states.length := by
  constructor
  · obtain ⟨res, hres, _⟩ := are_equivalent_good A B hA hB
    rw [hres]
    rfl
  · intro st hst
    obtain ⟨done, wd, inv⟩ := bfsReaches_inv _ _ _ _ (preprocess_cl1 A B hA)
      (preprocess_cl2 A B hB) (preprocess_start_mem1 A B hA)
      (preprocess_start_mem2 A B hB) st hst
    refine ⟨inv.hnodup, ?_⟩
    have hle := nodup_prod_length_le _ _ _ inv.hnodup inv.hprod
    have hle2 := PB_le (preprocess A B).1 (preprocess A B).2
    omega

/-- C1 as stated is false: on the valid automatons `dTokA` and `dTokB`,
whose alphabet symbol `"ab"` has two characters, `are_equivalent` returns
NOT-EQUIVALENT although the two post-call automatons accept exactly the same
words over the union alphabet (`accepts` reads characters, so it never
follows the two-character token transitions). -/
theorem claim1_counterexample :
    Valid dTokA ∧ Valid dTokB ∧
    ¬ (are_equivalent dTokA dTokB = some (true, none) ↔
      ∀ ws : List String, WordOver (listUnion dTokA.alphabet dTokB.alphabet) ws →
        (preprocess dTokA dTokB).1.accepts (String.join ws) =
          (preprocess dTokA dTokB).2.accepts (String.join ws)) := by
  refine ⟨by decide, by decide, ?_⟩
  intro hiff
  have hrhs : ∀ ws : List String, WordOver (listUnion dTokA.alphabet dTokB.alphabet) ws →
      (preprocess dTokA dTokB).1.accepts (String.join ws) =
        (preprocess dTokA dTokB).2.accepts (String.join ws) := by
    intro ws hover
    cases ws with
    | nil => decide
    | cons s rest =>
      have hs : s = "ab" := by
        have hm := hover s (List.mem_cons_self _ _)
        rw [show listUnion dTokA.alphabet dTokB.alphabet = ["ab"] from by decide] at hm
        simpa using hm
      subst hs
      have hjoin : (String.join ("ab" :: rest)).toList =
          'a' :: 'b' :: (String.join rest).toList := by
        show (String.join ("ab" :: rest)).data = 'a' :: 'b' :: (String.join rest).data
        rw [String.data_join, List.map_cons, List.flatten_cons, String.data_join]
        rfl
      unfold DFA.accepts
      rw [hjoin]
      rw [acceptsFrom_cons_none _ _ _ _ (by decide),
        acceptsFrom_cons_none _ _ _ _ (by decide)]
  have hcontra := hiff.mpr hrhs
  rw [show are_equivalent dTokA dTokB = some (false, some "ab") from by decide] at hcontra
  simp at hcontra

/-- Witness for C1: the amended equivalence applied to the concrete valid
single-character automaton `dRejAll` compared with itself. -/
theorem claim1_witness :
    are_equivalent dRejAll dRejAll = some (true, none) ↔
      ∀ ws : List String, WordOver (listUnion dRejAll.alphabet dRejAll.alphabet) ws →
        (preprocess dRejAll dRejAll).1.accepts (String.join ws) =
          (preprocess dRejAll dRejAll).2.accepts (String.join ws) :=
  claim1_amended dRejAll dRejAll (by decide) (by decide) (by decide)

/-- C2 as stated is false: on the valid automatons `dTokA` and `dTokB`,
`are_equivalent` returns NOT-EQUIVALENT with witness `"ab"`, yet the two
post-call automatons agree on `"ab"` (both reject it, because `accepts`
reads it character by character while the transitions are keyed by the
two-character token). -/
theorem claim2_counterexample :
    Valid dTokA ∧ Valid dTokB ∧
    are_equivalent dTokA dTokB = some (false, some "ab") ∧
    (preprocess dTokA dTokB).1.accepts "ab" = (preprocess dTokA dTokB).2.accepts "ab" := by
  refine ⟨by decide, by decide, by decide, by decide⟩

/-- Witness for C2: the amended theorem applied to the concrete pair
`dRejAll`, `dAccAll`, whose witness is the empty word. -/
theorem claim2_witness :
    (preprocess dRejAll dAccAll).1.accepts "" ≠
      (preprocess dRejAll dAccAll).2.accepts "" :=
  claim2_amended dRejAll dAccAll (by decide) (by decide) (by decide) "" (by decide)

/-- C3 as stated is false: on the valid automatons `dMix` and `dMixB`,
`are_equivalent` returns the witness `"bcbc"` (two BFS steps on the
two-character token `"bc"`), while the strictly shorter word `"aaa"` over
the union alphabet distinguishes the two post-call automatons. -/
theorem claim3_counterexample :
    Valid dMix ∧ Valid dMixB ∧
    are_equivalent dMix dMixB = some (false, some "bcbc") ∧
    WordOver (listUnion dMix.alphabet dMixB.alphabet) ["a", "a", "a"] ∧
    (preprocess dMix dMixB).1.accepts (String.join ["a", "a", "a"]) ≠
      (preprocess dMix dMixB).2.accepts (String.join ["a", "a", "a"]) ∧
    (String.join ["a", "a", "a"]).length < "bcbc".length := by
  refine ⟨by decide, by decide, by decide, by decide, by decide, by decide⟩

/-- Witness for C3: the amended theorem applied to the concrete pair
`dRejAll`, `dAccAll`, its empty-word witness and the distinguishing word
`"0"`. -/
theorem claim3_witness :
    ("" : String).length ≤ (String.join ["0"]).length :=
  claim3_amended dRejAll dAccAll (by decide) (by decide) (by decide) "" (by decide)
    ["0"] (by decide) (by decide)

/-- Witness for C6: the totality theorem applied to the concrete valid pair
`dRejAll`, `dAccAll`. -/
theorem claim6_witness :
    (preprocess dRejAll dAccAll).1.is_complete = true ∧
    (preprocess dRejAll dAccAll).2.is_complete = true ∧
    ∀ st, BfsReaches (preprocess dRejAll dAccAll).1 (preprocess dRejAll dAccAll).2
        (listUnion dRejAll.alphabet dAccAll.alphabet)
        ((preprocess dRejAll dAccAll).1.start_state,
          (preprocess dRejAll dAccAll).2.start_state) st →
      ∀ p ∈ st.2.1, ∀ a ∈ listUnion dRejAll.alphabet dAccAll.alphabet,
        (assocFind (preprocess dRejAll dAccAll).1.transitions (p.1, a)).isSome ∧
        (assocFind (preprocess dRejAll dAccAll).2.transitions (p.2, a)).isSome :=
  claim6_totality dRejAll dAccAll (by decide) (by decide)

/-- Witness for C9: the termination theorem applied to the concrete valid
pair `dRejAll`, `dAccAll`. -/
theorem claim9_witness :
    (are_equivalent dRejAll dAccAll).isSome ∧
    ∀ st, BfsReaches (preprocess dRejAll dAccAll).1 (preprocess dRejAll dAccAll).2
        (listUnion dRejAll.alphabet dAccAll.alphabet)
        ((preprocess dRejAll dAccAll).1.start_state,
          (preprocess dRejAll dAccAll).2.start_state) st →
      st.2.1.Nodup ∧
      st.2.1.length ≤ (preprocess dRejAll dAccAll).1.states.length *
        (preprocess dRejAll dAccAll).2.states.length :=
  claim9_termination dRejAll dAccAll (by decide) (by decide)

end Afdd
